import Mathlib

/-!
Verification of the proto-danksharding cryptography library (KZG commitments
over BLS12-381 in Lagrange form, aggregated openings, Fiat-Shamir transcript,
blob codec, evaluation domains, batch inversion, bit-reversal permutation).

The Rust sources are embedded shallowly:

* the scalar field `Fr` of BLS12-381 is `ZMod rBLS`;
* `G1` appears in the discrete-logarithm (exponent) model: a point is its
  scalar exponent with respect to the generator, multi-scalar multiplication
  is a dot product, and the final pairing equation of `OpeningKey::verify`
  becomes the corresponding linear equation on exponents (justified by
  bilinearity and non-degeneracy of the pairing on the prime-order groups);
* the compressed G1 byte encoding (external `blstrs` code) is an explicit
  parameter `serG1` of the functions that serialise points;
* panics (`assert!`, `todo!`, `unwrap`) are modelled by `Option`/dedicated
  result types;
* SHA-256 is implemented in full;
* `Scalar::invert` (external `blstrs` code) is exponentiation by `rBLS - 2`,
  which is how the library computes it, and is proved equal to the field
  inverse.

Machine integers are modelled as `ℕ` with explicit `% 2^w` where wrapping
matters; byte strings are `List ℕ` with each entry `< 256`.
-/

/-! ## Byte-level utilities -/

/-- Big-endian byte encoding of `n` into `k` bytes (`eip4844`: fixed-width
integers on the transcript wire). -/
def beBytes (k n : ℕ) : List ℕ := (List.range k).map (fun i => n / 256 ^ (k - 1 - i) % 256)

/-- Little-endian byte encoding of `n` into `k` bytes (e.g. `to_le_bytes`,
`Scalar::to_bytes_le`). -/
def leBytes (k n : ℕ) : List ℕ := (List.range k).map (fun i => n / 256 ^ i % 256)

/-- Little-endian interpretation of a byte string as an integer
(`from_le_bytes_mod_order` before the reduction). -/
def fromLEBytes (l : List ℕ) : ℕ := l.foldr (fun b acc => b + 256 * acc) 0

/-- Split a list into consecutive chunks of `n` elements; the first argument
is recursion fuel (callers pass the length). Mirrors `chunks_exact` /
per-64-byte block iteration. -/
def chunkAux {α : Type} (n : ℕ) : ℕ → List α → List (List α)
  | 0, _ => []
  | _, [] => []
  | fuel+1, l => l.take n :: chunkAux n fuel (l.drop n)

/-! ## SHA-256

The compression function of `sha2::Sha256` as used by the transcript, on
byte lists, with 32-bit words as naturals reduced `% 2 ^ 32`. -/

/-- Rotate a 32-bit word right by `n`. -/
def rotr32 (n x : ℕ) : ℕ := x / 2 ^ n + x % 2 ^ n * 2 ^ (32 - n)

/-- Choice function of SHA-256. -/
def shaCh (e f g : ℕ) : ℕ := (e &&& f) ^^^ ((4294967295 - e) &&& g)

/-- Majority function of SHA-256. -/
def shaMaj (a b c : ℕ) : ℕ := (a &&& b) ^^^ (a &&& c) ^^^ (b &&& c)

/-- Big sigma-0 of SHA-256. -/
def shaBigS0 (x : ℕ) : ℕ := rotr32 2 x ^^^ rotr32 13 x ^^^ rotr32 22 x

/-- Big sigma-1 of SHA-256. -/
def shaBigS1 (x : ℕ) : ℕ := rotr32 6 x ^^^ rotr32 11 x ^^^ rotr32 25 x

/-- Small sigma-0 of SHA-256. -/
def shaSmallS0 (x : ℕ) : ℕ := rotr32 7 x ^^^ rotr32 18 x ^^^ x / 2 ^ 3

/-- Small sigma-1 of SHA-256. -/
def shaSmallS1 (x : ℕ) : ℕ := rotr32 17 x ^^^ rotr32 19 x ^^^ x / 2 ^ 10

/-- Round constants of SHA-256. -/
def shaK : List ℕ :=
  [1116352408, 1899447441, 3049323471, 3921009573, 961987163, 1508970993, 2453635748, 2870763221,
  3624381080, 310598401, 607225278, 1426881987, 1925078388, 2162078206, 2614888103, 3248222580,
  3835390401, 4022224774, 264347078, 604807628, 770255983, 1249150122, 1555081692, 1996064986,
  2554220882, 2821834349, 2952996808, 3210313671, 3336571891, 3584528711, 113926993, 338241895,
  666307205, 773529912, 1294757372, 1396182291, 1695183700, 1986661051, 2177026350, 2456956037,
  2730485921, 2820302411, 3259730800, 3345764771, 3516065817, 3600352804, 4094571909, 275423344,
  430227734, 506948616, 659060556, 883997877, 958139571, 1322822218, 1537002063, 1747873779,
  1955562222, 2024104815, 2227730452, 2361852424, 2428436474, 2756734187, 3204031479, 3329325298]

/-- Initial hash state of SHA-256. -/
def shaH0 : List ℕ :=
  [1779033703, 3144134277, 1013904242, 2773480762, 1359893119, 2600822924, 528734635, 1541459225]

/-- Merkle-Damgard padding of SHA-256: append `0x80`, zero fill to 56 mod 64,
then the bit length as 8 big-endian bytes. -/
def shaPad (msg : List ℕ) : List ℕ :=
  msg ++ [128] ++ List.replicate ((119 - msg.length % 64) % 64) 0 ++ beBytes 8 (8 * msg.length)

/-- Parse a 64-byte block into its 16 big-endian 32-bit words. -/
def blockWords (blk : List ℕ) : List ℕ :=
  (List.range 16).map (fun i =>
    ((blk.getD (4*i) 0 * 256 + blk.getD (4*i+1) 0) * 256 + blk.getD (4*i+2) 0) * 256
      + blk.getD (4*i+3) 0)

/-- Message-schedule extension: append the given number of derived words. -/
def extendW : ℕ → List ℕ → List ℕ
  | 0, ws => ws
  | k+1, ws =>
    extendW k (ws ++ [(shaSmallS1 (ws.getD (ws.length-2) 0) + ws.getD (ws.length-7) 0
      + shaSmallS0 (ws.getD (ws.length-15) 0) + ws.getD (ws.length-16) 0) % 2 ^ 32])

/-- One round of the SHA-256 compression loop on the 8-word state; `kw` is
the sum of the round constant and the schedule word. -/
def shaRound (st : List ℕ) (kw : ℕ) : List ℕ :=
  match st with
  | [a, b, c, d, e, f, g, h] =>
    let t1 := (h + shaBigS1 e + shaCh e f g + kw) % 2 ^ 32
    let t2 := (shaBigS0 a + shaMaj a b c) % 2 ^ 32
    [(t1 + t2) % 2 ^ 32, a, b, c, (d + t1) % 2 ^ 32, e, f, g]
  | _ => st

/-- Compress one 64-byte block into the running 8-word state. -/
def shaCompress (h : List ℕ) (blk : List ℕ) : List ℕ :=
  let ws := extendW 48 (blockWords blk)
  let st := (List.zipWith (fun k w => k + w) shaK ws).foldl shaRound h
  List.zipWith (fun x y => (x + y) % 2 ^ 32) h st

/-- Full SHA-256 of a byte string, as its 32 digest bytes. -/
def sha256 (msg : List ℕ) : List ℕ :=
  let padded := shaPad msg
  let final := (chunkAux 64 padded.length padded).foldl shaCompress shaH0
  (final.map (beBytes 4)).flatten

/-! ## The scalar field of BLS12-381 -/

/-- Order of the scalar field `Fr` of BLS12-381 (the constant `r`). -/
def rBLS : ℕ := 52435875175126190479447740508185965837690552500527637822603658699938581184513

/-- Scalars of the library are elements of `Fr`. -/
abbrev Fr := ZMod rBLS

/-- Kernel-computable modular exponentiation by binary splitting of the
exponent; the first argument is recursion fuel. -/
def powModAux : ℕ → ℕ → ℕ → ℕ → ℕ
  | 0, m, _, _ => 1 % m
  | fuel+1, m, b, e =>
    if e = 0 then 1 % m
    else
      let h := powModAux fuel m (b * b % m) (e / 2)
      if e % 2 = 1 then h * b % m else h

theorem powModAux_eq (fuel : ℕ) : ∀ b e : ℕ, ∀ m : ℕ, e < 2 ^ fuel →
    powModAux fuel m b e = b ^ e % m := by
  induction fuel with
  | zero =>
    intro b e m he
    interval_cases e
    simp [powModAux]
  | succ n ih =>
    intro b e m he
    rcases Nat.eq_zero_or_pos e with h0 | hpos
    · subst h0; simp [powModAux]
    · have hne : e ≠ 0 := Nat.pos_iff_ne_zero.mp hpos
      have hdiv : e / 2 < 2 ^ n := by
        have : e < 2 ^ n * 2 := by simpa [pow_succ] using he
        omega
      have hrec := ih (b * b % m) (e / 2) m hdiv
      have hbb : (b * b % m) ^ (e / 2) % m = (b * b) ^ (e / 2) % m :=
        (Nat.pow_mod (b * b) (e / 2) m).symm
      rcases Nat.mod_two_eq_zero_or_one e with hpar | hpar
      · have hsplit : b ^ e = (b * b) ^ (e / 2) := by
          rw [← pow_two, ← pow_mul]
          congr 1
          omega
        have hstep : powModAux (n+1) m b e = powModAux n m (b * b % m) (e / 2) := by
          simp only [powModAux, if_neg hne]
          rw [if_neg (by omega)]
        rw [hstep, hrec, hbb, hsplit]
      · have hsplit : b ^ e = (b * b) ^ (e / 2) * b := by
          rw [← pow_two, ← pow_mul, ← pow_succ]
          congr 1
          omega
        have hstep : powModAux (n+1) m b e = powModAux n m (b * b % m) (e / 2) * b % m := by
          simp only [powModAux, if_neg hne]
          rw [if_pos hpar]
        rw [hstep, hrec, hbb, Nat.mod_mul_mod, hsplit]

instance : NeZero rBLS := ⟨by decide⟩

instance : Fact (1 < rBLS) := ⟨by decide⟩

/-- Casting the fast modular power into `ZMod m` computes the monoid power. -/
theorem castPowModAux (fuel b e m : ℕ) (he : e < 2 ^ fuel) :
    ((powModAux fuel m b e : ℕ) : ZMod m) = (b : ZMod m) ^ e := by
  rw [powModAux_eq fuel b e m he, ZMod.natCast_mod, Nat.cast_pow]

/-- Outputs of the fast modular power are reduced. -/
theorem powModAux_lt (fuel : ℕ) : ∀ m b e : ℕ, 1 < m → powModAux fuel m b e < m := by
  induction fuel with
  | zero =>
    intro m b e hm
    simpa [powModAux] using Nat.mod_lt 1 (show 0 < m by omega)
  | succ n ih =>
    intro m b e hm
    by_cases he : e = 0
    · subst he
      simpa [powModAux] using Nat.mod_lt 1 (show 0 < m by omega)
    · simp only [powModAux, if_neg he]
      by_cases hp : e % 2 = 1
      · rw [if_pos hp]
        exact Nat.mod_lt _ (by omega)
      · rw [if_neg hp]
        exact ih m _ _ hm

/-- Exponents below the modulus fit the fuel used throughout this file. -/
theorem div_lt_fuel (q : ℕ) : (rBLS - 1) / q < 2 ^ 300 :=
  lt_of_le_of_lt (Nat.div_le_self _ _) (by decide)

/-- If the fast power does not compute 1, the `Fr` power is not 1. -/
theorem fr_pow_ne_one (b e : ℕ) (he : e < 2 ^ 300)
    (h : powModAux 300 rBLS b e ≠ 1) : (b : Fr) ^ e ≠ 1 := by
  intro hcontra
  apply h
  have hcast : ((powModAux 300 rBLS b e : ℕ) : Fr) = 1 := by
    rw [castPowModAux 300 b e rBLS he]
    exact hcontra
  have hlt : powModAux 300 rBLS b e < rBLS := powModAux_lt 300 rBLS b e (by decide)
  calc powModAux 300 rBLS b e
      = ((powModAux 300 rBLS b e : ℕ) : Fr).val := (ZMod.val_cast_of_lt hlt).symm
    _ = (1 : Fr).val := by rw [hcast]
    _ = 1 := ZMod.val_one rBLS

set_option maxRecDepth 10000 in
/-- Fermat step of the Lucas certificate for `rBLS`. -/
theorem fr_seven_pow_sub_one : ((7 : ℕ) : Fr) ^ (rBLS - 1) = 1 := by
  have h : powModAux 300 rBLS 7 (rBLS - 1) = 1 := by decide
  have hc := castPowModAux 300 7 (rBLS - 1) rBLS (by decide)
  rw [h] at hc
  simpa using hc.symm

set_option maxRecDepth 10000 in
/-- Factorisation of `rBLS - 1` used by the Lucas certificate. -/
theorem rBLS_sub_one_fact : rBLS - 1 =
    2 ^ 32 * (3 * (11 * (19 * (10177 * (125527 * (859267 * (906349 ^ 2 *
      (2508409 * (2529403 * (52437899 * 254760293 ^ 2)))))))))) := by decide

/-- General Fermat step over `ZMod m`: when the fast power computes 1, so
does the monoid power. -/
theorem zmod_pow_eq_one (m b e : ℕ) (he : e < 2 ^ 300)
    (h : powModAux 300 m b e = 1) : (b : ZMod m) ^ e = 1 := by
  have hc := castPowModAux 300 b e m he
  rw [h] at hc
  simpa using hc.symm

/-- General Fermat step over `ZMod m`, contrapositive form. -/
theorem zmod_pow_ne_one (m b e : ℕ) (hm : 1 < m) (he : e < 2 ^ 300)
    (h : powModAux 300 m b e ≠ 1) : (b : ZMod m) ^ e ≠ 1 := by
  haveI : NeZero m := ⟨by omega⟩
  haveI : Fact (1 < m) := ⟨hm⟩
  intro hcontra
  apply h
  have hcast : ((powModAux 300 m b e : ℕ) : ZMod m) = 1 := by
    rw [castPowModAux 300 b e m he]
    exact hcontra
  have hlt : powModAux 300 m b e < m := powModAux_lt 300 m b e hm
  calc powModAux 300 m b e
      = ((powModAux 300 m b e : ℕ) : ZMod m).val := (ZMod.val_cast_of_lt hlt).symm
    _ = (1 : ZMod m).val := by rw [hcast]
    _ = 1 := ZMod.val_one m

set_option maxRecDepth 10000 in
/-- Primality of the factor 609743 of `52437899 - 1`. -/
theorem prime_609743 : Nat.Prime 609743 := by norm_num

set_option maxRecDepth 10000 in
/-- Primality of the factor 2653753 of `63690073 - 1`. -/
theorem prime_2653753 : Nat.Prime 2653753 := by norm_num

set_option maxRecDepth 100000 in
/-- Primality of the factor 52437899 of `rBLS - 1`, by a Lucas certificate
with witness 2 and `52437898 = 2 · 43 · 609743`. -/
theorem prime_52437899 : Nat.Prime 52437899 := by
  apply lucas_primality 52437899 2
  · rw [show (2 : ZMod 52437899) = ((2 : ℕ) : ZMod 52437899) by norm_num]
    exact zmod_pow_eq_one 52437899 2 (52437899 - 1) (by decide) (by decide)
  · intro q hq hdvd
    rw [show (52437899 : ℕ) - 1 = 2 * (43 * 609743) by decide] at hdvd
    have hq2 : q = 2 ∨ q = 43 ∨ q = 609743 := by
      rcases (Nat.Prime.dvd_mul hq).mp hdvd with h | h
      · exact Or.inl ((Nat.prime_dvd_prime_iff_eq hq Nat.prime_two).mp h)
      rcases (Nat.Prime.dvd_mul hq).mp h with h | h
      · exact Or.inr (Or.inl ((Nat.prime_dvd_prime_iff_eq hq (by norm_num)).mp h))
      · exact Or.inr (Or.inr ((Nat.prime_dvd_prime_iff_eq hq prime_609743).mp h))
    rcases hq2 with rfl | rfl | rfl
    all_goals simpa using zmod_pow_ne_one 52437899 2 _ (by decide) (by decide) (by decide)

set_option maxRecDepth 100000 in
/-- Primality of the factor 63690073 of `254760293 - 1`, by a Lucas
certificate with witness 7 and `63690072 = 2³ · 3 · 2653753`. -/
theorem prime_63690073 : Nat.Prime 63690073 := by
  apply lucas_primality 63690073 7
  · rw [show (7 : ZMod 63690073) = ((7 : ℕ) : ZMod 63690073) by norm_num]
    exact zmod_pow_eq_one 63690073 7 (63690073 - 1) (by decide) (by decide)
  · intro q hq hdvd
    rw [show (63690073 : ℕ) - 1 = 2 ^ 3 * (3 * 2653753) by decide] at hdvd
    have hq2 : q = 2 ∨ q = 3 ∨ q = 2653753 := by
      rcases (Nat.Prime.dvd_mul hq).mp hdvd with h | h
      · exact Or.inl ((Nat.prime_dvd_prime_iff_eq hq Nat.prime_two).mp
          (hq.dvd_of_dvd_pow h))
      rcases (Nat.Prime.dvd_mul hq).mp h with h | h
      · exact Or.inr (Or.inl ((Nat.prime_dvd_prime_iff_eq hq Nat.prime_three).mp h))
      · exact Or.inr (Or.inr ((Nat.prime_dvd_prime_iff_eq hq prime_2653753).mp h))
    rcases hq2 with rfl | rfl | rfl
    all_goals simpa using zmod_pow_ne_one 63690073 7 _ (by decide) (by decide) (by decide)

set_option maxRecDepth 100000 in
/-- Primality of the factor 254760293 of `rBLS - 1`, by a Lucas certificate
with witness 2 and `254760292 = 2² · 63690073`. -/
theorem prime_254760293 : Nat.Prime 254760293 := by
  apply lucas_primality 254760293 2
  · rw [show (2 : ZMod 254760293) = ((2 : ℕ) : ZMod 254760293) by norm_num]
    exact zmod_pow_eq_one 254760293 2 (254760293 - 1) (by decide) (by decide)
  · intro q hq hdvd
    rw [show (254760293 : ℕ) - 1 = 2 ^ 2 * 63690073 by decide] at hdvd
    have hq2 : q = 2 ∨ q = 63690073 := by
      rcases (Nat.Prime.dvd_mul hq).mp hdvd with h | h
      · exact Or.inl ((Nat.prime_dvd_prime_iff_eq hq Nat.prime_two).mp
          (hq.dvd_of_dvd_pow h))
      · exact Or.inr ((Nat.prime_dvd_prime_iff_eq hq prime_63690073).mp h)
    rcases hq2 with rfl | rfl
    all_goals simpa using zmod_pow_ne_one 254760293 2 _ (by decide) (by decide) (by decide)

set_option maxRecDepth 100000 in
/-- Primality of the BLS12-381 scalar field order, by a Lucas certificate
with witness 7 and the factorisation of `rBLS - 1`. -/
theorem rBLS_prime : Nat.Prime rBLS := by
  apply lucas_primality rBLS 7
  · rw [show (7 : ZMod rBLS) = ((7 : ℕ) : Fr) by norm_num]
    exact fr_seven_pow_sub_one
  · intro q hq hdvd
    have hq' : q = 2 ∨ q = 3 ∨ q = 11 ∨ q = 19 ∨ q = 10177 ∨ q = 125527 ∨ q = 859267 ∨
        q = 906349 ∨ q = 2508409 ∨ q = 2529403 ∨ q = 52437899 ∨ q = 254760293 := by
      rw [rBLS_sub_one_fact] at hdvd
      rcases (Nat.Prime.dvd_mul hq).mp hdvd with h | h
      · exact Or.inl ((Nat.prime_dvd_prime_iff_eq hq Nat.prime_two).mp (hq.dvd_of_dvd_pow h))
      rcases (Nat.Prime.dvd_mul hq).mp h with h | h
      · exact Or.inr (Or.inl ((Nat.prime_dvd_prime_iff_eq hq (by norm_num)).mp h))
      rcases (Nat.Prime.dvd_mul hq).mp h with h | h
      · exact Or.inr (Or.inr (Or.inl ((Nat.prime_dvd_prime_iff_eq hq (by norm_num)).mp h)))
      rcases (Nat.Prime.dvd_mul hq).mp h with h | h
      · exact Or.inr (Or.inr (Or.inr (Or.inl
          ((Nat.prime_dvd_prime_iff_eq hq (by norm_num)).mp h))))
      rcases (Nat.Prime.dvd_mul hq).mp h with h | h
      · exact Or.inr (Or.inr (Or.inr (Or.inr (Or.inl
          ((Nat.prime_dvd_prime_iff_eq hq (by norm_num)).mp h)))))
      rcases (Nat.Prime.dvd_mul hq).mp h with h | h
      · exact Or.inr (Or.inr (Or.inr (Or.inr (Or.inr (Or.inl
          ((Nat.prime_dvd_prime_iff_eq hq (by norm_num)).mp h))))))
      rcases (Nat.Prime.dvd_mul hq).mp h with h | h
      · exact Or.inr (Or.inr (Or.inr (Or.inr (Or.inr (Or.inr (Or.inl
          ((Nat.prime_dvd_prime_iff_eq hq (by norm_num)).mp h)))))))
      rcases (Nat.Prime.dvd_mul hq).mp h with h | h
      · exact Or.inr (Or.inr (Or.inr (Or.inr (Or.inr (Or.inr (Or.inr (Or.inl
          ((Nat.prime_dvd_prime_iff_eq hq (by norm_num)).mp (hq.dvd_of_dvd_pow h)))))))))
      rcases (Nat.Prime.dvd_mul hq).mp h with h | h
      · exact Or.inr (Or.inr (Or.inr (Or.inr (Or.inr (Or.inr (Or.inr (Or.inr (Or.inl
          ((Nat.prime_dvd_prime_iff_eq hq (by norm_num)).mp h)))))))))
      rcases (Nat.Prime.dvd_mul hq).mp h with h | h
      · exact Or.inr (Or.inr (Or.inr (Or.inr (Or.inr (Or.inr (Or.inr (Or.inr (Or.inr (Or.inl
          ((Nat.prime_dvd_prime_iff_eq hq (by norm_num)).mp h))))))))))
      rcases (Nat.Prime.dvd_mul hq).mp h with h | h
      · exact Or.inr (Or.inr (Or.inr (Or.inr (Or.inr (Or.inr (Or.inr (Or.inr (Or.inr (Or.inr
          (Or.inl ((Nat.prime_dvd_prime_iff_eq hq prime_52437899).mp h)))))))))))
      · exact Or.inr (Or.inr (Or.inr (Or.inr (Or.inr (Or.inr (Or.inr (Or.inr (Or.inr (Or.inr
          (Or.inr ((Nat.prime_dvd_prime_iff_eq hq prime_254760293).mp
            (hq.dvd_of_dvd_pow h))))))))))))
    rcases hq' with rfl | rfl | rfl | rfl | rfl | rfl | rfl | rfl | rfl | rfl | rfl | rfl
    all_goals simpa using fr_pow_ne_one 7 _ (div_lt_fuel _) (by decide)

instance : Fact (Nat.Prime rBLS) := ⟨rBLS_prime⟩

/-- Kernel-computable power in `Fr` (the pairing library's `pow_vartime`). -/
def frPow (b : Fr) (e : ℕ) : Fr := ((powModAux 300 rBLS b.val e : ℕ) : Fr)

/-- The fast power agrees with the monoid power for all exponents in range. -/
theorem frPow_eq (b : Fr) (e : ℕ) (he : e < 2 ^ 300) : frPow b e = b ^ e := by
  rw [frPow, castPowModAux 300 b.val e rBLS he, ZMod.natCast_rightInverse b]

/-- Scalar inversion as the library computes it (`blstrs Scalar::invert`):
exponentiation by `rBLS - 2`, which sends 0 to 0. -/
def frInvert (x : Fr) : Fr := frPow x (rBLS - 2)

/-- The library's inversion is the field inverse (also at 0, where both give
0). -/
theorem frInvert_eq (x : Fr) : frInvert x = x⁻¹ := by
  rw [frInvert, frPow_eq x (rBLS - 2) (by decide)]
  rcases eq_or_ne x 0 with rfl | hx
  · rw [zero_pow (by decide : rBLS - 2 ≠ 0), inv_zero]
  · refine (inv_eq_of_mul_eq_one_right ?_).symm
    calc x * x ^ (rBLS - 2) = x ^ (rBLS - 2 + 1) := by rw [pow_succ, mul_comm]
      _ = 1 := by
          rw [show rBLS - 2 + 1 = rBLS - 1 by decide]
          exact ZMod.pow_card_sub_one_eq_one hx

/-! ## Fiat-Shamir transcript (`crypto/src/kzg/transcript.rs`)

The transcript state is its byte buffer; `hashFn` is a fresh SHA-256 whose
internal state is reset after every use, so it carries no information between
calls and is omitted from the state. -/

/-- Transcript of the Fiat-Shamir heuristic: an append-only byte buffer. -/
structure Transcript where
  bytes : List ℕ
  deriving DecidableEq

/-- ASCII bytes of the protocol domain separator `FSBLOBVERIFY_V1_`. -/
def protocolLabelBytes : List ℕ := [70, 83, 66, 76, 79, 66, 86, 69, 82, 73, 70, 89, 95, 86, 49, 95]

/-- Transcript::new starts from an empty buffer. -/
def Transcript.new : Transcript := ⟨[]⟩

/-- Transcript::with_protocol_name starts from the label's bytes. -/
def Transcript.withProtocolName : Transcript := ⟨protocolLabelBytes⟩

/-- Raw append of bytes to the buffer. -/
def Transcript.appendBytes (t : Transcript) (l : List ℕ) : Transcript := ⟨t.bytes ++ l⟩

/-- Little-endian 32-byte encoding of a scalar (`Scalar::to_bytes_le`). -/
def scalarBytesLE (x : Fr) : List ℕ := leBytes 32 x.val

/-- Append a polynomial: each evaluation as 32 little-endian bytes, in order. -/
def Transcript.appendPolynomial (t : Transcript) (p : List Fr) : Transcript :=
  t.appendBytes (p.map scalarBytesLE).flatten

/-- Append a G1 point through the compressed encoding `serG1` (the external
`to_compressed` of `blstrs`). -/
def Transcript.appendG1Point {π : Type} (serG1 : π → List ℕ) (t : Transcript) (pt : π) :
    Transcript :=
  t.appendBytes (serG1 pt)

/-- Append a batch: 8-byte little-endian degree, 8-byte little-endian count,
all polynomials, then all points; `None` models the two panics on mismatched
or empty inputs. -/
def Transcript.appendPolysPoints {π : Type} (serG1 : π → List ℕ) (t : Transcript)
    (polys : List (List Fr)) (points : List π) : Option Transcript :=
  if points.length ≠ polys.length then none
  else if points.length = 0 then none
  else some (points.foldl (Transcript.appendG1Point serG1)
    (polys.foldl Transcript.appendPolynomial
      ((t.appendBytes (leBytes 8 (polys.headD []).length)).appendBytes
        (leBytes 8 polys.length))))

/-- The reduction of a 32-byte hash into a scalar
(`arkworks::unreduced_bytes_to_scalar`, i.e. `from_le_bytes_mod_order`). -/
def unreducedBytesToScalar (l : List ℕ) : Fr := ((fromLEBytes l : ℕ) : Fr)

/-- Squeeze `k` challenge scalars: compress the buffer with SHA-256, hash the
state with a one-byte counter per challenge, and replace the buffer with the
compressed state. -/
def Transcript.challengeScalars (t : Transcript) (k : ℕ) : List Fr × Transcript :=
  let state := sha256 t.bytes
  ((List.range k).map (fun i => unreducedBytesToScalar (sha256 (state ++ [i]))),
    ⟨state⟩)

/-- Squeeze a single challenge scalar (`challenge_scalars(1)[0]`). -/
def Transcript.challengeScalar (t : Transcript) : Fr × Transcript :=
  let r := t.challengeScalars 1
  (r.1.getD 0 0, r.2)

/-- Big-endian 32-byte encoding of a scalar (`Scalar::to_bytes_be`). -/
def scalarBytesBE (x : Fr) : List ℕ := beBytes 32 x.val

/-- Lower-case hex digit of a value below 16. -/
def hexDigit (n : ℕ) : Char := if n < 10 then Char.ofNat (48 + n) else Char.ofNat (87 + n)

/-- Lower-case hex string of a byte list. -/
def hexOfBytes (l : List ℕ) : String :=
  ⟨(l.map (fun b => [hexDigit (b / 16), hexDigit (b % 16)])).flatten⟩

/-! ## Power-of-two tests and logarithms (kernel-computable) -/

/-- Fuelled base-2 logarithm (`fuel ≥ n` makes it exact). -/
def log2Fuel : ℕ → ℕ → ℕ
  | 0, _ => 0
  | fuel+1, n => if n ≤ 1 then 0 else log2Fuel fuel (n / 2) + 1

/-- Base-2 logarithm used by the embedding. -/
def log2n (n : ℕ) : ℕ := log2Fuel n n

/-- Power-of-two test (`usize::is_power_of_two`). -/
def isPow2 (n : ℕ) : Bool := n == 2 ^ log2n n

/-! ## Polynomials in Lagrange form (`crypto/src/polynomial.rs`) and the
arkworks-backed evaluation domain (`crypto/src/roots_of_unity.rs`).

A polynomial is its evaluation vector. `RootsU` embeds `RootsOfUnity`: the
vector of roots and the inverse domain size. -/

/-- Embedding of `crypto::RootsOfUnity`. -/
structure RootsU where
  inner : List Fr
  inverseDomainSize : Fr
  deriving DecidableEq

/-- Polynomial::new asserts the evaluation count is a power of two. -/
def polynomialNew (evals : List Fr) : Option (List Fr) :=
  if isPow2 evals.length then some evals else none

/-- Scalar multiple of a polynomial (`scale_polynomial`, through
`Polynomial::new`). -/
def scalePolynomial (p : List Fr) (s : Fr) : Option (List Fr) :=
  polynomialNew (p.map (fun e => e * s))

/-- Scale each row by the matching scalar; mirrors
`matrix.iter().zip(scalars).map(|(v, s)| v * s)`, so the shorter side
truncates. -/
def scaledRows : List (List Fr) → List Fr → Option (List (List Fr))
  | _, [] => some []
  | [], _ => some []
  | p :: ps, s :: ss =>
    match scalePolynomial p s, scaledRows ps ss with
    | some q, some rest => some (q :: rest)
    | _, _ => none

/-- Linear combination of the rows of a polynomial matrix
(`Polynomial::matrix_lincomb`, serial branch): scale each row, then fold
into a zero vector of the first row's length with element-wise addition
(`zip` truncating). -/
def matrixLincomb (matrix : List (List Fr)) (scalars : List Fr) : Option (List Fr) :=
  match matrix with
  | [] => none
  | p0 :: _ =>
    match scaledRows matrix scalars with
    | none => none
    | some scaled =>
      polynomialNew (scaled.foldl (fun sum v => List.zipWith (fun a b => a + b) sum v)
        (List.replicate p0.length 0))

/-- Multi-scalar multiplication in the exponent model (`g1_lincomb`): a dot
product, with the length assertion as `none`. -/
def g1Lincomb (points : List Fr) (scalars : List Fr) : Option Fr :=
  if points.length = scalars.length then
    some (List.zipWith (fun s p => s * p) scalars points).sum
  else none

/-- Commitment in Lagrange basis (`CommitKeyLagrange::commit`). -/
def commitCK (ck : List Fr) (p : List Fr) : Option Fr := g1Lincomb ck p

/-- Inversion-or-zero used by the barycentric formula (`crypto::inverse`:
`invert().unwrap_or(zero)`; `frInvert` already sends 0 to 0). -/
def inverseOrZero (x : Fr) : Fr := frInvert x

/-- Barycentric evaluation of a Lagrange-form polynomial at a point outside
the domain (`Polynomial::evaluate_outside_of_domain`). The two leading
`assert!`s, on the polynomial/domain size and on domain membership of the
evaluation point, are `none`. -/
def evaluateOutsideOfDomain (p : List Fr) (z : Fr) (d : RootsU) : Option Fr :=
  if p.length ≠ d.inner.length then none
  else if d.inner.contains z then none
  else some ((List.range p.length).foldl
    (fun acc i => acc + p.getD i 0 * d.inner.getD i 0 * inverseOrZero (z - d.inner.getD i 0)) 0
    * (frPow z p.length - 1) * d.inverseDomainSize)

/-! ## Batch inversion

`serial_batch_inversion` as in `crypto/src/lib.rs` (the module compiled into
the crate): zero entries are filtered out of both passes, so they are left
in place; `batch_inverse` is the variant of `crypto/src/batch_inversion.rs`,
whose extra `assert_eq!(prod.len(), v.len())` fails exactly when a zero entry
is present. -/

/-- Forward pass: running prefix products of the (already filtered) entries. -/
def prodsAux (tmp : Fr) : List Fr → List Fr
  | [] => []
  | f :: rest => (tmp * f) :: prodsAux (tmp * f) rest

/-- Backward pass over the reversed vector: zero entries pass through; each
non-zero entry `f` consumes the next element `s` of the product stream and
becomes `tmp * s`, with `tmp` updated to `tmp * f`; an exhausted stream (the
`zip` ending) leaves the remaining entries unchanged. -/
def backAux : List Fr → List Fr → Fr → List Fr
  | [], _, _ => []
  | f :: rest, ss, tmp =>
    if f = 0 then f :: backAux rest ss tmp
    else
      match ss with
      | [] => f :: backAux rest [] tmp
      | s :: ss' => (tmp * s) :: backAux rest ss' (tmp * f)

/-- Montgomery batch inversion (`serial_batch_inversion`, `crypto/src/lib.rs`
lines 67-99). The `unwrap` on inverting the running product is `none` when
that product is zero (never, in a field, once zeros are filtered). -/
def serial_batch_inversion (v : List Fr) : Option (List Fr) :=
  let nz := v.filter (fun x => decide (x ≠ 0))
  let prods := prodsAux 1 nz
  let tot := nz.foldl (fun a b => a * b) 1
  if tot = 0 then none
  else some (backAux v.reverse (prods.reverse.drop 1 ++ [1]) (frInvert tot)).reverse

/-- Asserting batch inversion (`crypto/src/batch_inversion.rs` lines 34-70):
fails on any zero entry, otherwise computes as `serial_batch_inversion`. -/
def batch_inverse (v : List Fr) : Option (List Fr) :=
  if (v.filter (fun x => decide (x ≠ 0))).length = v.length then serial_batch_inversion v
  else none

/-! ## Quotient polynomial (`crypto/src/kzg/quotient_poly.rs`) -/

/-- The sum computed by the loop of `compute_quotient_eval_within_domain`
(quotient_poly.rs lines 68-78), before the function discards it. -/
def withinDomainSum (p : List Fr) (m : ℕ) (y : Fr) (roots : List Fr) : Fr :=
  (List.range roots.length).foldl (fun acc i =>
    if i = m then acc
    else acc + (p.getD i 0 - y) * roots.getD i 0 *
      frInvert (roots.getD m 0 * (roots.getD m 0 - roots.getD i 0))) 0

/-- Embedding of `compute_quotient_eval_within_domain` (quotient_poly.rs
lines 57-81): the body computes `withinDomainSum` into its `result` variable
but unconditionally ends in the `todo!()` marker, so every call panics —
whether through the in-loop `invert().unwrap()` on a zero denominator or
through the final `todo!()`. Both are `none`. -/
def compute_quotient_eval_within_domain (_p : List Fr) (_m : ℕ) (_y : Fr) (_roots : List Fr) :
    Option Fr :=
  none

/-- Embedding of `compute_quotient_in_domain` (quotient_poly.rs lines
23-55): shift by `y`, batch-invert the root differences with slot `m` set to
1, then fill the quotient; slot `m` needs
`compute_quotient_eval_within_domain` and therefore panics. -/
def compute_quotient_in_domain (p : List Fr) (m : ℕ) (y : Fr) (d : RootsU) :
    Option (List Fr) :=
  if m < d.inner.length then
    let ipt := d.inner.getD m 0
    let denoms := (d.inner.map (fun w => w - ipt)).set m 1
    match batch_inverse denoms with
    | none => none
    | some inv =>
      match compute_quotient_eval_within_domain p m y d.inner with
      | none => none
      | some qm =>
        polynomialNew ((List.range d.inner.length).map (fun i =>
          if i = m then qm else (p.getD i 0 - y) * inv.getD i 0))
  else none

/-- Embedding of `compute_quotient_outside_domain` (quotient_poly.rs lines
82-114). -/
def compute_quotient_outside_domain (p : List Fr) (z y : Fr) (d : RootsU) :
    Option (List Fr) :=
  match batch_inverse (d.inner.map (fun w => w - z)) with
  | none => none
  | some inv => polynomialNew (List.zipWith (fun qi ei => (ei - y) * qi) inv p)

/-- Embedding of the quotient dispatcher `compute` (quotient_poly.rs lines
9-21): branch on whether the input point is found in the domain. -/
def compute (p : List Fr) (z y : Fr) (d : RootsU) : Option (List Fr) :=
  match d.inner.findIdx? (fun w => w == z) with
  | some m => compute_quotient_in_domain p m y d
  | none => compute_quotient_outside_domain p z y d

/-! ## Single-opening KZG proof (`crypto/src/kzg/proof.rs`,
`crypto/src/kzg/opening_key.rs`) -/

/-- Embedding of `KZGProof::create` (proof.rs lines 24-43): evaluate, build
the quotient, commit to it. The quotient builder `CommitKeyLagrange::
compute_quotient` is not present under `src/`; per the specification (§4.6 /
§4.7) it is the quotient construction, embedded here as `compute` from
`kzg/quotient_poly.rs`. Returns `(polynomial_commitment,
quotient_commitment, output_point)`. -/
def kzgProofCreate (ck : List Fr) (p : List Fr) (polyComm : Fr) (z : Fr) (d : RootsU) :
    Option (Fr × Fr × Fr) := do
  let y ← evaluateOutsideOfDomain p z d
  let q ← compute p z y d
  let qc ← g1Lincomb ck q
  some (polyComm, qc, y)

/-- Embedding of `OpeningKey::verify` (opening_key.rs lines 42-71) in the
exponent model: with `g1_gen = 1`, `g2_gen = 1` and `tau_g2_gen = tau`, the
pairing product `e(C - y·G₁, G₂) · e(W, -(τ·G₂ - z·G₂)) = 1` holds exactly
when `C - y = W · (τ - z)` on exponents, by bilinearity and non-degeneracy
of the BLS12-381 pairing on its prime-order subgroups. -/
def openingKeyVerify (tau z y polyComm witnessComm : Fr) : Bool :=
  polyComm - y == witnessComm * (tau - z)

/-! ## Aggregated KZG proof (`crypto/src/kzg/aggregated_proof.rs`) -/

/-- Embedding of `compute_powers` (aggregated_proof.rs lines 135-145):
iterated multiplication starting from 1. -/
def computePowersAux (x acc : Fr) : ℕ → List Fr
  | 0 => []
  | n+1 => acc :: computePowersAux x (acc * x) n

/-- Powers `[1, x, x², …]` of the aggregation challenge. -/
def compute_powers (x : Fr) (n : ℕ) : List Fr := computePowersAux x 1 n

/-- Embedding of `compute_aggregate_poly_and_comm` (aggregated_proof.rs
lines 106-133): append every polynomial, then every commitment, to the
transcript; squeeze the aggregation challenge; combine polynomials and
commitments by its powers. Returns the aggregate polynomial, its
commitment, the updated transcript, and the challenge. -/
def compute_aggregate_poly_and_comm (serG1 : Fr → List ℕ) (t : Transcript)
    (polys : List (List Fr)) (polyComms : List Fr) :
    Option (List Fr × Fr × Transcript × Fr) :=
  if polys.length ≠ polyComms.length then none
  else
    let t1 := polyComms.foldl (Transcript.appendG1Point serG1)
      (polys.foldl Transcript.appendPolynomial t)
    let c := t1.challengeScalar
    let powers := compute_powers c.1 polyComms.length
    match matrixLincomb polys powers, g1Lincomb polyComms powers with
    | some agg, some aggComm => some (agg, aggComm, c.2, c.1)
    | _, _ => none

/-- Embedding of `AggregatedKZG::create` (aggregated_proof.rs lines 47-70):
aggregate through a fresh unlabelled transcript, append the aggregate
polynomial and commitment, squeeze the evaluation challenge, and return the
quotient commitment of the single-opening proof. -/
def aggregatedCreate (serG1 : Fr → List ℕ) (ck : List Fr) (polys : List (List Fr))
    (polyComms : List Fr) (d : RootsU) : Option Fr := do
  let (agg, aggComm, t, _) ← compute_aggregate_poly_and_comm serG1 Transcript.new polys polyComms
  let t2 := (t.appendPolynomial agg).appendG1Point serG1 aggComm
  let pr ← kzgProofCreate ck agg aggComm t2.challengeScalar.1 d
  some pr.2.1

/-- Embedding of `AggregatedKZG::verify` (aggregated_proof.rs lines 72-103):
rebuild the identical transcript, recompute the challenge, evaluate the
aggregate polynomial there, and run the pairing check. -/
def aggregatedVerify (serG1 : Fr → List ℕ) (tau : Fr) (polys : List (List Fr))
    (polyComms : List Fr) (quotientComm : Fr) (d : RootsU) : Option Bool := do
  let (agg, aggComm, t, _) ← compute_aggregate_poly_and_comm serG1 Transcript.new polys polyComms
  let t2 := (t.appendPolynomial agg).appendG1Point serG1 aggComm
  let y ← evaluateOutsideOfDomain agg t2.challengeScalar.1 d
  some (openingKeyVerify tau t2.challengeScalar.1 y aggComm quotientComm)

/-- Byte string over which the first transcript challenge of
`AggregatedKZG::create`/`verify` is computed: the polynomials then the
commitments, appended to the empty buffer of `Transcript::new`. -/
def aggregateFirstHashInput (serG1 : Fr → List ℕ) (polys : List (List Fr))
    (polyComms : List Fr) : List ℕ :=
  (polyComms.foldl (Transcript.appendG1Point serG1)
    (polys.foldl Transcript.appendPolynomial Transcript.new)).bytes

/-- The evaluation challenge the prover and verifier of the aggregated
protocol derive (the second squeeze). -/
def aggChallengeZ (serG1 : Fr → List ℕ) (polys : List (List Fr)) (polyComms : List Fr) :
    Option Fr := do
  let (agg, aggComm, t, _) ← compute_aggregate_poly_and_comm serG1 Transcript.new polys polyComms
  some ((t.appendPolynomial agg).appendG1Point serG1 aggComm).challengeScalar.1

/-- Lagrange coefficients of the commit key. Modelled from the spec: the
in-tree `PublicParameters::from_secret` calls the external arkworks
`evaluate_all_lagrange_coefficients(tau)`, which for `tau` outside the
domain of the `n`-th roots of unity generated by `ω` returns
`L_i(τ) = ω^i · (τ^n - 1) / (n · (τ - ω^i))` for `i < n` (spec §4.11:
"Equivalent to computing `{L_i(τ)·G₁}` directly"). -/
def lagrangeCoeffs (omega : Fr) (n : ℕ) (tau : Fr) : List Fr :=
  (List.range n).map (fun i =>
    frPow omega i * (frPow tau n - 1) * frInvert ((n : Fr) * (tau - frPow omega i)))

/-! ## Evaluation domain (`crypto/src/domain.rs`) -/

/-- Embedding of `crypto::domain::Domain`. -/
structure DomainR where
  roots : List Fr
  domainSize : Fr
  domainSizeInv : Fr
  generator : Fr
  generatorInv : Fr
  deriving DecidableEq

/-- The fixed `2^32`-th root of unity of the scalar field
(`Domain::largest_root_of_unity`). -/
def largestRootOfUnity : Fr :=
  ((10238227357739495823651030575849232062558860180284477541189508159991286009131 : ℕ) : Fr)

/-- Embedding of `usize::next_power_of_two`. -/
def nextPow2 (s : ℕ) : ℕ := if s ≤ 1 then 1 else 2 ^ (log2n (s - 1) + 1)

/-- The roots vector built by repeated multiplication (`Domain::new`,
lines 39-45): `acc, acc·gen, acc·gen², …`. -/
def rootsAux (gen acc : Fr) : ℕ → List Fr
  | 0 => []
  | n+1 => acc :: rootsAux gen (acc * gen) n

/-- Embedding of `Domain::compute_generator_for_size` (domain.rs lines
63-75): asserts a power of two, requires `log₂ size ≤ 32` (the two-adicity),
and raises the fixed root to `2^(32 - log₂ size)`. -/
def computeGeneratorForSize (size : ℕ) : Option Fr :=
  if ¬ isPow2 size then none
  else if 32 < log2n size then none
  else some (frPow largestRootOfUnity (2 ^ (32 - log2n size)))

/-- Embedding of `Domain::new` (domain.rs lines 23-54): pad the size to the
next power of two, compute the generator, its inverse and the inverse size
(`invert().unwrap()` is `none` on zero), and build the roots iteratively. -/
def domainNew (s : ℕ) : Option DomainR :=
  let size := if isPow2 s then s else nextPow2 s
  match computeGeneratorForSize size with
  | none => none
  | some generator =>
    if generator = 0 then none
    else if (size : Fr) = 0 then none
    else some ⟨rootsAux generator 1 size, (size : Fr), frInvert (size : Fr),
      generator, frInvert generator⟩

/-! ## Bit-reversal permutation (`eip4844/src/permutation.rs`) -/

/-- Reversal of the low `k` bits of a natural number. -/
def revNat : ℕ → ℕ → ℕ
  | 0, _ => 0
  | k+1, x => x % 2 * 2 ^ k + revNat k (x / 2)

/-- Bit length of a natural number (`64 - leading_zeros` on `u64`). -/
def bitLen (n : ℕ) : ℕ := if n = 0 then 0 else log2n n + 1

/-- Embedding of `u64::leading_zeros`. -/
def u64LeadingZeros (num : ℕ) : ℕ := 64 - bitLen num

/-- Embedding of `min_num_bits_needed` (permutation.rs lines 50-52). -/
def minNumBitsNeeded (num : ℕ) : ℕ := 64 - u64LeadingZeros num

/-- Embedding of `reverse_bits` (permutation.rs lines 42-48): panic on a
non-power-of-two order, else reverse all 64 bits and shift right by
`65 - min_num_bits_needed(order)`. -/
def reverse_bits (num order : ℕ) : Option ℕ :=
  if ¬ isPow2 order then none
  else some (revNat 64 (num % 2 ^ 64) >>> (65 - minNumBitsNeeded order))

/-- Gather `v[reverse_bits i order]` over the given indices; out-of-range
indexing is a panic (`none`). -/
def permAux {α : Type} (v : List α) (order : ℕ) : List ℕ → Option (List α)
  | [] => some []
  | i :: is =>
    match reverse_bits i order with
    | none => none
    | some p =>
      match v[p]?, permAux v order is with
      | some x, some rest => some (x :: rest)
      | _, _ => none

/-- Embedding of `bit_reversal_permutation` (permutation.rs lines 56-61). -/
def bit_reversal_permutation {α : Type} (v : List α) : Option (List α) :=
  permAux v v.length (List.range v.length)

/-! ## Blob codec (`eip4844/src/lib.rs`) -/

/-- Outcome of decoding a blob: a polynomial, a `None` rejection, or a panic
(`todo!` on the empty buffer, the power-of-two `assert!` in
`Polynomial::new`). -/
inductive BlobResult where
  | ok (evals : List Fr)
  | reject
  | abort
  deriving DecidableEq

/-- Embedding of `bytes_to_scalar` (`Scalar::from_bytes_le`): a 32-byte
little-endian chunk decodes only when canonical, i.e. below `rBLS`. -/
def bytesToScalarOpt (c : List ℕ) : Option Fr :=
  if fromLEBytes c < rBLS then some ((fromLEBytes c : ℕ) : Fr) else none

/-- Decode every chunk, failing if any chunk is non-canonical. -/
def decodeChunks : List (List ℕ) → Option (List Fr)
  | [] => some []
  | c :: cs =>
    match bytesToScalarOpt c, decodeChunks cs with
    | some s, some rest => some (s :: rest)
    | _, _ => none

/-- Embedding of `blob_bytes_to_polynomial` (eip4844/src/lib.rs lines
151-172): reject a length not divisible by 32; panic (`todo!`) on the empty
buffer; split into 32-byte chunks and decode each canonically, rejecting the
blob on failure; finally `Polynomial::new` asserts a power-of-two count. -/
def blob_bytes_to_polynomial (bytes : List ℕ) : BlobResult :=
  if bytes.length % 32 ≠ 0 then .reject
  else if bytes.length = 0 then .abort
  else
    match decodeChunks (chunkAux 32 bytes.length bytes) with
    | none => .reject
    | some evals =>
      match polynomialNew evals with
      | some p => .ok p
      | none => .abort

/-! ## Transcript operation sequences (for the buffer-only dependence of
challenges) -/

/-- One append operation on a transcript: raw bytes, a polynomial, or a G1
point. -/
inductive TranscriptOp (π : Type) where
  | raw (l : List ℕ)
  | poly (p : List Fr)
  | point (pt : π)

/-- Bytes an operation contributes to the buffer. -/
def opBytes {π : Type} (serG1 : π → List ℕ) : TranscriptOp π → List ℕ
  | .raw l => l
  | .poly p => (p.map scalarBytesLE).flatten
  | .point pt => serG1 pt

/-- Apply one append operation. -/
def applyOp {π : Type} (serG1 : π → List ℕ) (t : Transcript) : TranscriptOp π → Transcript
  | .raw l => t.appendBytes l
  | .poly p => t.appendPolynomial p
  | .point pt => t.appendG1Point serG1 pt

/-- Apply a sequence of append operations in order. -/
def applyOps {π : Type} (serG1 : π → List ℕ) (ops : List (TranscriptOp π)) (t : Transcript) :
    Transcript :=
  ops.foldl (applyOp serG1) t

/-- Applying operations concatenates their bytes onto the buffer. -/
theorem applyOps_bytes {π : Type} (serG1 : π → List ℕ) (ops : List (TranscriptOp π)) :
    ∀ t : Transcript, (applyOps serG1 ops t).bytes =
      t.bytes ++ (ops.map (opBytes serG1)).flatten := by
  induction ops with
  | nil => intro t; simp [applyOps]
  | cons op rest ih =>
    intro t
    have hstep : (applyOp serG1 t op).bytes = t.bytes ++ opBytes serG1 op := by
      cases op <;> rfl
    calc (applyOps serG1 (op :: rest) t).bytes
        = (applyOps serG1 rest (applyOp serG1 t op)).bytes := rfl
      _ = (applyOp serG1 t op).bytes ++ (rest.map (opBytes serG1)).flatten := ih _
      _ = t.bytes ++ ((op :: rest).map (opBytes serG1)).flatten := by
          rw [hstep, List.map_cons, List.flatten_cons, List.append_assoc]

set_option maxRecDepth 100000 in
/-- C3: challenge_scalars first compresses the buffer into
`state = SHA256(buffer)`; the i-th returned scalar is the little-endian
value of `SHA256(state ‖ byte(i))` reduced mod `r`; the buffer is replaced
by `state`; and on the fresh labelled transcript the single challenge
serialises big-endian to the interop vector. -/
theorem challenge_scalars_spec (t : Transcript) (k : ℕ) (h1 : 1 ≤ k) (h2 : k ≤ 255) :
    (t.challengeScalars k).2.bytes = sha256 t.bytes ∧
    (∀ i, i < k → (t.challengeScalars k).1.getD i 0 =
      ((fromLEBytes (sha256 (sha256 t.bytes ++ [i])) : ℕ) : Fr)) ∧
    hexOfBytes (scalarBytesBE Transcript.withProtocolName.challengeScalar.1) =
      "585f39007d35d5dd2235c9ac951750bed15c5cf8fdbc685b81df8af7069bb26b" := by
  refine ⟨rfl, ?_, by decide⟩
  intro i hi
  simp only [Transcript.challengeScalars, unreducedBytesToScalar]
  rw [List.getD_eq_getElem?_getD, List.getElem?_map, List.getElem?_range hi]
  rfl

set_option maxRecDepth 100000 in
/-- Witness for C3 at the fresh transcript and `k = 1`. -/
theorem challenge_scalars_spec_witness :
    (Transcript.new.challengeScalars 1).2.bytes = sha256 Transcript.new.bytes ∧
    (∀ i, i < 1 → (Transcript.new.challengeScalars 1).1.getD i 0 =
      ((fromLEBytes (sha256 (sha256 Transcript.new.bytes ++ [i])) : ℕ) : Fr)) ∧
    hexOfBytes (scalarBytesBE Transcript.withProtocolName.challengeScalar.1) =
      "585f39007d35d5dd2235c9ac951750bed15c5cf8fdbc685b81df8af7069bb26b" :=
  challenge_scalars_spec Transcript.new 1 (by decide) (by decide)

/-- C10: transcript challenges depend only on the concatenation of the
appended bytes. Any two operation sequences over any point types whose
byte contributions (appended to the respective starting buffers, which
carry the optional label) concatenate to the same string give identical
challenge lists and identical post-squeeze buffers, for every count `k`:
there is no per-append framing or domain separation. -/
theorem challenges_concat_only {π π' : Type} (serG1 : π → List ℕ) (serG1' : π' → List ℕ)
    (ops1 : List (TranscriptOp π)) (ops2 : List (TranscriptOp π'))
    (t1 t2 : Transcript)
    (h : t1.bytes ++ (ops1.map (opBytes serG1)).flatten =
      t2.bytes ++ (ops2.map (opBytes serG1')).flatten) (k : ℕ) :
    (applyOps serG1 ops1 t1).challengeScalars k =
      (applyOps serG1' ops2 t2).challengeScalars k := by
  have hb : (applyOps serG1 ops1 t1).bytes = (applyOps serG1' ops2 t2).bytes := by
    rw [applyOps_bytes, applyOps_bytes, h]
  have : applyOps serG1 ops1 t1 = applyOps serG1' ops2 t2 := by
    cases happ1 : applyOps serG1 ops1 t1
    cases happ2 : applyOps serG1' ops2 t2
    simpa [happ1, happ2] using hb
  rw [this]

/-- Witness for C10: one append against a split append of the same bytes. -/
theorem challenges_concat_only_witness :
    (applyOps (fun _ : Unit => []) [TranscriptOp.raw [1, 2, 3]] Transcript.new).challengeScalars 2 =
      (applyOps (fun _ : Unit => []) [TranscriptOp.raw [1], TranscriptOp.raw [2, 3]]
        Transcript.new).challengeScalars 2 :=
  challenges_concat_only (fun _ : Unit => []) (fun _ : Unit => [])
    [TranscriptOp.raw [1, 2, 3]] [TranscriptOp.raw [1], TranscriptOp.raw [2, 3]]
    Transcript.new Transcript.new (by rfl) 2

/-! ## C7: polynomial evaluation at an in-domain point -/

/-- Amended C7: the only evaluation method,
`Polynomial::evaluate_outside_of_domain`, asserts that the point is outside
the domain, so evaluating at any domain point `roots[i]` fails (aborts)
instead of returning `evals[i]`; no in-domain lookup branch exists. -/
theorem evaluate_in_domain_aborts (p : List Fr) (d : RootsU) (i : ℕ)
    (hi : i < d.inner.length) :
    evaluateOutsideOfDomain p (d.inner.getD i 0) d = none := by
  unfold evaluateOutsideOfDomain
  by_cases hlen : p.length ≠ d.inner.length
  · rw [if_pos hlen]
  · rw [if_neg hlen, if_pos ?_]
    have hmem : d.inner.getD i 0 ∈ d.inner := by
      rw [List.getD_eq_getElem d.inner 0 hi]
      exact List.getElem_mem hi
    simpa using hmem

/-- Witness for the amended C7 at a polynomial of length 2 over the
two-element domain `[1, -1]`. -/
theorem evaluate_in_domain_aborts_witness :
    evaluateOutsideOfDomain [3, 4]
      (RootsU.inner ⟨[1, ((rBLS - 1 : ℕ) : Fr)],
        ((26217937587563095239723870254092982918845276250263818911301829349969290592257 : ℕ) : Fr)⟩
        |>.getD 0 0)
      ⟨[1, ((rBLS - 1 : ℕ) : Fr)],
        ((26217937587563095239723870254092982918845276250263818911301829349969290592257 : ℕ) : Fr)⟩
      = none :=
  evaluate_in_domain_aborts [3, 4] _ 0 (by decide)

/-- Counterexample to C7 as stated: evaluating the polynomial `[3, 4]` at
`roots[0] = 1` of the two-element domain returns `none` (the membership
`assert!` fires), not `evals[0] = 3`. -/
theorem evaluate_in_domain_counterexample :
    evaluateOutsideOfDomain [3, 4] 1
      ⟨[1, ((rBLS - 1 : ℕ) : Fr)],
        ((26217937587563095239723870254092982918845276250263818911301829349969290592257 : ℕ) : Fr)⟩
      = none ∧ (3 : Fr) ≠ 0 := by
  constructor
  · decide
  · decide

/-! ## C6: batch inversion -/

/-- Appending one element to the forward pass appends one product. -/
theorem prodsAux_snoc (u : List Fr) (f : Fr) : ∀ c : Fr,
    prodsAux c (u ++ [f]) = prodsAux c u ++ [c * u.prod * f] := by
  induction u with
  | nil => intro c; simp [prodsAux]
  | cons a u ih =>
    intro c
    simp only [List.cons_append, prodsAux, List.prod_cons, List.append_eq]
    rw [ih (c * a), ← mul_assoc c a u.prod]

/-- The backward pass leaves an all-zero list unchanged, whatever the
stream and accumulator. -/
theorem backAux_zeros (w : List Fr) (hw : ∀ x ∈ w, x = 0) :
    ∀ ss tmp, backAux w ss tmp = w := by
  induction w with
  | nil => intro ss tmp; rfl
  | cons f rest ih =>
    intro ss tmp
    have hf : f = 0 := hw f (List.mem_cons_self f rest)
    simp only [backAux, if_pos hf]
    rw [ih (fun x hx => hw x (List.mem_cons_of_mem f hx)) ss tmp]

/-- A list of zeros is fixed by element-wise inversion. -/
theorem map_inv_zeros (u : List Fr) (hu : ∀ x ∈ u, x = 0) :
    u.map (fun x => x⁻¹) = u := by
  calc u.map (fun x => x⁻¹) = u.map id := by
        apply List.map_congr_left
        intro x hx
        rw [hu x hx, id, inv_zero]
    _ = u := List.map_id u

/-- The filtered product is non-zero. -/
theorem filter_prod_ne_zero (v : List Fr) :
    (v.filter (fun x => decide (x ≠ 0))).prod ≠ 0 := by
  apply List.prod_ne_zero
  intro h0
  have := List.of_mem_filter h0
  simp at this

/-- Unfolding of the backward pass at a zero entry: any stream, any
accumulator. -/
theorem backAux_cons_zero (rest ss : List Fr) (tmp : Fr) :
    backAux (0 :: rest) ss tmp = 0 :: backAux rest ss tmp := by
  cases ss <;> simp [backAux]

/-- Unfolding of the backward pass at a non-zero entry with a non-empty
stream. -/
theorem backAux_cons_ne (f : Fr) (hf : f ≠ 0) (rest : List Fr) (s : Fr) (ss' : List Fr)
    (tmp : Fr) :
    backAux (f :: rest) (s :: ss') tmp = (tmp * s) :: backAux rest ss' (tmp * f) := by
  simp [backAux, hf]

/-- Core correctness of the two-pass Montgomery loop: processing the
reversed vector against the reversed product stream, with the inverted
total as accumulator, yields the reversed vector of inverses (zero entries
staying zero, as both passes filter them out). -/
theorem backAux_inverts : ∀ u : List Fr,
    backAux u.reverse
      ((prodsAux 1 (u.filter (fun x => decide (x ≠ 0)))).reverse.drop 1 ++ [1])
      ((u.filter (fun x => decide (x ≠ 0))).prod⁻¹)
      = (u.map (fun x => x⁻¹)).reverse := by
  intro u
  induction u using List.reverseRecOn with
  | nil => rfl
  | append_singleton u f ih =>
    rw [List.reverse_append, List.reverse_singleton, List.singleton_append,
      List.map_append, List.reverse_append, List.map_singleton, List.reverse_singleton,
      List.singleton_append]
    by_cases hf : f = 0
    · subst hf
      have hfil : (u ++ [(0 : Fr)]).filter (fun x => decide (x ≠ 0)) =
          u.filter (fun x => decide (x ≠ 0)) := by
        simp [List.filter_append]
      rw [hfil, backAux_cons_zero, ih, inv_zero]
    · have hfil : (u ++ [f]).filter (fun x => decide (x ≠ 0)) =
          u.filter (fun x => decide (x ≠ 0)) ++ [f] := by
        simp [List.filter_append, hf]
      rw [hfil]
      have hnzprod := filter_prod_ne_zero u
      have hprodapp : (u.filter (fun x => decide (x ≠ 0)) ++ [f]).prod =
          (u.filter (fun x => decide (x ≠ 0))).prod * f := by
        simp
      rw [hprodapp, prodsAux_snoc (u.filter (fun x => decide (x ≠ 0))) f 1]
      have hdrop : ∀ (B : List Fr) (x : Fr), (B ++ [x]).reverse.drop 1 = B.reverse := by
        intro B x
        simp
      rw [hdrop]
      rcases List.eq_nil_or_concat (u.filter (fun x => decide (x ≠ 0))) with hnil | ⟨w, a, hwa⟩
      · have huz : ∀ x ∈ u, x = 0 := by
          intro x hx
          by_contra hxne
          have hmem : x ∈ u.filter (fun x => decide (x ≠ 0)) :=
            List.mem_filter.mpr ⟨hx, by simpa using hxne⟩
          rw [hnil] at hmem
          cases hmem
        rw [hnil]
        have hstream : (prodsAux 1 ([] : List Fr)).reverse ++ [1] = [(1 : Fr)] := by
          simp [prodsAux]
        rw [hstream, backAux_cons_ne f hf u.reverse 1 [] _,
          backAux_zeros u.reverse (fun x hx => huz x (List.mem_reverse.mp hx)) [] _,
          map_inv_zeros u huz]
        rw [List.prod_nil, one_mul, mul_one]
      · rw [List.concat_eq_append] at hwa
        have hrev : (prodsAux 1 (u.filter (fun x => decide (x ≠ 0)))).reverse ++ [1] =
            ((u.filter (fun x => decide (x ≠ 0))).prod) ::
              ((prodsAux 1 (u.filter (fun x => decide (x ≠ 0)))).reverse.drop 1 ++ [1]) := by
          rw [hwa, prodsAux_snoc w a 1]
          simp
        rw [hrev, backAux_cons_ne f hf u.reverse _ _ _]
        have hhead : ((u.filter (fun x => decide (x ≠ 0))).prod * f)⁻¹ *
            (u.filter (fun x => decide (x ≠ 0))).prod = f⁻¹ := by
          rw [mul_inv_rev, mul_assoc, inv_mul_cancel₀ hnzprod, mul_one]
        have htmp : ((u.filter (fun x => decide (x ≠ 0))).prod * f)⁻¹ * f =
            (u.filter (fun x => decide (x ≠ 0))).prod⁻¹ := by
          rw [mul_inv_rev, mul_right_comm, inv_mul_cancel₀ hf, one_mul]
        rw [hhead, htmp, ih]

/-- The live `serial_batch_inversion` (crypto/src/lib.rs) maps every vector
to its element-wise field inverses, zero entries included (they are skipped
by both passes and `0⁻¹ = 0`), and never fails. -/
theorem serial_batch_inversion_eq (v : List Fr) :
    serial_batch_inversion v = some (v.map (fun x => x⁻¹)) := by
  simp only [serial_batch_inversion]
  have hfold : List.foldl (fun a b => a * b) 1 (v.filter (fun x => decide (x ≠ 0))) =
      (v.filter (fun x => decide (x ≠ 0))).prod :=
    List.prod_eq_foldl.symm
  rw [hfold, if_neg (filter_prod_ne_zero v), frInvert_eq, backAux_inverts v,
    List.reverse_reverse]

/-- Amended C6: batch inversion overwrites the slice element-wise with field
inverses and returns for every input; zero entries are skipped (staying 0)
rather than making the operation fail; on a slice with no zero entry the
result satisfies `result[i] * v[i] = 1` for every `i`. -/
theorem serial_batch_inversion_amended (v : List Fr) :
    serial_batch_inversion v = some (v.map (fun x => x⁻¹)) ∧
    ∀ i, i < v.length → v.getD i 0 ≠ 0 →
      (v.map (fun x => x⁻¹)).getD i 0 * v.getD i 0 = 1 := by
  refine ⟨serial_batch_inversion_eq v, ?_⟩
  intro i hi hne
  have hmap : (v.map (fun x => x⁻¹)).getD i 0 = (v.getD i 0)⁻¹ := by
    rw [List.getD_eq_getElem _ _ (by simpa using hi), List.getElem_map,
      List.getD_eq_getElem _ _ hi]
  rw [hmap, inv_mul_cancel₀ hne]

/-- Witness for the amended C6 on the zero-free slice `[2, 3]`. -/
theorem serial_batch_inversion_amended_witness :
    serial_batch_inversion [(2 : Fr), 3] = some ([(2 : Fr), 3].map (fun x => x⁻¹)) ∧
    ∀ i, i < [(2 : Fr), 3].length → [(2 : Fr), 3].getD i 0 ≠ 0 →
      ([(2 : Fr), 3].map (fun x => x⁻¹)).getD i 0 * [(2 : Fr), 3].getD i 0 = 1 :=
  serial_batch_inversion_amended [2, 3]

set_option maxRecDepth 100000 in
/-- Counterexample to C6 as stated: on the slice `[0]`, which has a zero
entry, `serial_batch_inversion` returns normally (with the zero unchanged)
instead of failing. -/
theorem serial_batch_inversion_counterexample :
    serial_batch_inversion [(0 : Fr)] = some [(0 : Fr)] := by decide

/-! ## C2: the in-domain quotient branch -/

/-- The linear scan `find` succeeds, with an in-range index, on any domain
member. -/
theorem findIdxQ_of_mem (l : List Fr) (z : Fr) (hz : z ∈ l) :
    ∃ m, l.findIdx? (fun w => w == z) = some m ∧ m < l.length := by
  induction l with
  | nil => cases hz
  | cons a l ih =>
    by_cases ha : a = z
    · refine ⟨0, ?_, Nat.succ_pos _⟩
      simp [List.findIdx?_cons, ha]
    · have hz' : z ∈ l := by
        rcases List.mem_cons.mp hz with h | h
        · exact absurd h.symm ha
        · exact h
      obtain ⟨m, hm, hlt⟩ := ih hz'
      refine ⟨m + 1, ?_, by simpa using Nat.succ_lt_succ hlt⟩
      simp [List.findIdx?_cons, ha, hm]

/-- C2 on the code as written: for any input point that lies in the domain,
the quotient dispatcher `compute` takes the in-domain branch, which reaches
`compute_quotient_eval_within_domain` and its unconditional `todo!()`
marker, so the call panics (`none`) instead of returning the quotient. -/
theorem compute_quotient_in_domain_panics (p : List Fr) (z y : Fr) (d : RootsU)
    (hz : z ∈ d.inner) : compute p z y d = none := by
  obtain ⟨m, hm, hmlt⟩ := findIdxQ_of_mem d.inner z hz
  simp only [compute, hm]
  simp only [compute_quotient_in_domain, if_pos hmlt, compute_quotient_eval_within_domain]
  split <;> rfl

set_option maxRecDepth 100000 in
/-- Witness for C2's panic theorem at the failing input: the polynomial
`[1, 2]` over the two-element domain, evaluated at `roots[0] = 1`. -/
theorem compute_quotient_in_domain_panics_witness :
    compute [1, 2] 1 0
      ⟨[1, ((rBLS - 1 : ℕ) : Fr)],
        ((26217937587563095239723870254092982918845276250263818911301829349969290592257 : ℕ) : Fr)⟩
      = none :=
  compute_quotient_in_domain_panics [1, 2] 1 0 _ (by decide)

/-! ## C5: the blob codec -/

/-- The little-endian value of the `j`-th 32-byte chunk of a buffer. -/
def chunkValue (bytes : List ℕ) (j : ℕ) : ℕ := fromLEBytes ((bytes.drop (32 * j)).take 32)

/-- Chunking a list whose length is an exact multiple of the chunk size
yields the successive 32-byte windows. -/
theorem chunkAux_exact {α : Type} (n : ℕ) (hn : 0 < n) : ∀ (q : ℕ) (l : List α) (fuel : ℕ),
    l.length = n * q → l.length ≤ fuel →
    chunkAux n fuel l = (List.range q).map (fun j => (l.drop (n * j)).take n) := by
  intro q
  induction q with
  | zero =>
    intro l fuel hlen _
    have : l = [] := List.eq_nil_of_length_eq_zero (by omega)
    subst this
    cases fuel <;> rfl
  | succ q ih =>
    intro l fuel hlen hfuel
    have hpos : 0 < l.length := by
      have : 0 < n * (q + 1) := by positivity
      omega
    rcases fuel with _ | f
    · omega
    have hdroplen : (l.drop n).length = n * q := by
      rw [List.length_drop]
      have : n * (q + 1) = n * q + n := by ring
      omega
    have hstep : chunkAux n (f + 1) l = l.take n :: chunkAux n f (l.drop n) := by
      cases l with
      | nil => simp at hpos
      | cons a l' => rfl
    have hexp : n * (q + 1) = n * q + n := by ring
    rw [hstep, ih (l.drop n) f hdroplen (by rw [hdroplen]; omega)]
    rw [List.range_succ_eq_map, List.map_cons, List.map_map]
    congr 1
    apply List.map_congr_left
    intro j hj
    simp only [Function.comp_apply]
    rw [List.drop_drop]
    congr 2
    rw [Nat.succ_eq_add_one]
    ring

/-- Decoding succeeds on all-canonical chunks, yielding the cast values. -/
theorem decodeChunks_ok : ∀ cs : List (List ℕ), (∀ c ∈ cs, fromLEBytes c < rBLS) →
    decodeChunks cs = some (cs.map (fun c => ((fromLEBytes c : ℕ) : Fr))) := by
  intro cs
  induction cs with
  | nil => intro _; rfl
  | cons c cs ih =>
    intro h
    have hc : fromLEBytes c < rBLS := h c (List.mem_cons_self c cs)
    have hcs := ih (fun x hx => h x (List.mem_cons_of_mem c hx))
    simp [decodeChunks, bytesToScalarOpt, hc, hcs]

/-- Decoding fails as soon as some chunk is non-canonical. -/
theorem decodeChunks_err : ∀ cs : List (List ℕ), (∃ c ∈ cs, ¬ fromLEBytes c < rBLS) →
    decodeChunks cs = none := by
  intro cs
  induction cs with
  | nil => rintro ⟨c, hc, -⟩; cases hc
  | cons c cs ih =>
    rintro ⟨c', hc', hbad⟩
    rcases List.mem_cons.mp hc' with rfl | hmem
    · simp [decodeChunks, bytesToScalarOpt, hbad]
    · rw [decodeChunks, ih ⟨c', hmem, hbad⟩]
      cases bytesToScalarOpt c <;> rfl

/-- Amended C5: the blob decoder returns `none` (reject) exactly when the
non-empty buffer length is not a multiple of 32 or some 32-byte chunk is
non-canonical; the empty buffer panics (an unimplemented `todo!`); there is
no `FIELD_ELEMENTS_PER_BLOB = 4096` check — any power-of-two number of
canonical chunks yields the polynomial of the decoded scalars, and a
non-power-of-two count panics in `Polynomial::new`. -/
theorem blob_bytes_to_polynomial_characterisation (bytes : List ℕ) :
    blob_bytes_to_polynomial bytes =
      if bytes.length % 32 ≠ 0 then BlobResult.reject
      else if bytes.length = 0 then BlobResult.abort
      else if ¬ (∀ j, j < bytes.length / 32 → chunkValue bytes j < rBLS) then BlobResult.reject
      else if isPow2 (bytes.length / 32) then
        BlobResult.ok ((List.range (bytes.length / 32)).map
          (fun j => ((chunkValue bytes j : ℕ) : Fr)))
      else BlobResult.abort := by
  by_cases h32 : bytes.length % 32 = 0
  case neg => simp [blob_bytes_to_polynomial, h32]
  by_cases h0 : bytes.length = 0
  · simp [blob_bytes_to_polynomial, h32, h0]
  have hdvd : 32 ∣ bytes.length := Nat.dvd_of_mod_eq_zero h32
  have hq : bytes.length = 32 * (bytes.length / 32) := (Nat.mul_div_cancel' hdvd).symm
  unfold blob_bytes_to_polynomial
  rw [if_neg (by omega : ¬ bytes.length % 32 ≠ 0), if_neg h0,
    if_neg (by omega : ¬ bytes.length % 32 ≠ 0), if_neg h0,
    chunkAux_exact 32 (by norm_num) (bytes.length / 32) bytes bytes.length hq le_rfl]
  by_cases hcanon : ∀ j, j < bytes.length / 32 → chunkValue bytes j < rBLS
  · have hall : ∀ c ∈ (List.range (bytes.length / 32)).map
        (fun j => (bytes.drop (32 * j)).take 32), fromLEBytes c < rBLS := by
      intro c hc
      obtain ⟨j, hj, rfl⟩ := List.mem_map.mp hc
      exact hcanon j (List.mem_range.mp hj)
    rw [decodeChunks_ok _ hall, List.map_map, if_neg (not_not_intro hcanon)]
    simp only [polynomialNew, List.length_map, List.length_range]
    by_cases hp2 : isPow2 (bytes.length / 32)
    · rw [if_pos hp2, if_pos hp2]
      rfl
    · rw [if_neg hp2, if_neg hp2]
  · have hex : ∃ c ∈ (List.range (bytes.length / 32)).map
        (fun j => (bytes.drop (32 * j)).take 32), ¬ fromLEBytes c < rBLS := by
      push_neg at hcanon
      obtain ⟨j, hj, hbad⟩ := hcanon
      exact ⟨(bytes.drop (32 * j)).take 32, List.mem_map.mpr ⟨j, List.mem_range.mpr hj, rfl⟩,
        by simpa using hbad⟩
    rw [decodeChunks_err _ hex, if_pos hcanon]

set_option maxRecDepth 100000 in
/-- Counterexample to C5 as stated: a 64-byte all-zero buffer has 2 chunks,
not 4096, yet the decoder succeeds with the 2-element zero polynomial
instead of returning an error. -/
theorem blob_bytes_to_polynomial_counterexample :
    blob_bytes_to_polynomial (List.replicate 64 0) = BlobResult.ok [0, 0] ∧
    (List.replicate 64 (0 : ℕ)).length / 32 ≠ 4096 := by
  constructor
  · decide
  · decide

/-! ## C9: the bit-reversal permutation is an involution -/

/-- The fuelled logarithm is exact on powers of two. -/
theorem log2Fuel_pow : ∀ k fuel : ℕ, 2 ^ k ≤ fuel → log2Fuel fuel (2 ^ k) = k := by
  intro k
  induction k with
  | zero =>
    intro fuel hf
    rcases fuel with _ | f
    · omega
    · simp [log2Fuel]
  | succ k ih =>
    intro fuel hf
    have h1 : 1 ≤ 2 ^ k := Nat.one_le_two_pow
    have h2 : 2 ^ (k + 1) = 2 * 2 ^ k := by ring
    rcases fuel with _ | f
    · omega
    have hgt : ¬ 2 ^ (k + 1) ≤ 1 := by omega
    have hdiv : 2 ^ (k + 1) / 2 = 2 ^ k := by omega
    simp only [log2Fuel, if_neg hgt, hdiv]
    rw [ih f (by omega)]

/-- Logarithm of a power of two. -/
theorem log2n_two_pow (k : ℕ) : log2n (2 ^ k) = k := log2Fuel_pow k (2 ^ k) le_rfl

/-- Powers of two pass the power-of-two test. -/
theorem isPow2_two_pow (k : ℕ) : isPow2 (2 ^ k) = true := by
  simp [isPow2, log2n_two_pow]

/-- Reversal of zero is zero. -/
theorem revNat_zero : ∀ k : ℕ, revNat k 0 = 0 := by
  intro k
  induction k with
  | zero => rfl
  | succ k ih => simp [revNat, ih]

/-- The reversal of the low `k` bits is below `2 ^ k`. -/
theorem revNat_lt : ∀ k x : ℕ, revNat k x < 2 ^ k := by
  intro k
  induction k with
  | zero => intro x; simp [revNat]
  | succ k ih =>
    intro x
    have hx2 : x % 2 ≤ 1 := by omega
    have := ih (x / 2)
    have h2 : 2 ^ (k + 1) = 2 * 2 ^ k := by ring
    simp only [revNat]
    have hmul : x % 2 * 2 ^ k ≤ 2 ^ k := by
      calc x % 2 * 2 ^ k ≤ 1 * 2 ^ k := Nat.mul_le_mul_right _ hx2
        _ = 2 ^ k := one_mul _
    omega

/-- Dual unfolding: reversing `k+1` bits of `a·2^k + r` (top bit `a`, low
bits `r`) shifts the reversal of `r` and puts `a` at the bottom. -/
theorem revNat_top : ∀ k a r : ℕ, a ≤ 1 → r < 2 ^ k →
    revNat (k + 1) (a * 2 ^ k + r) = 2 * revNat k r + a := by
  intro k
  induction k with
  | zero =>
    intro a r ha hr
    interval_cases r
    interval_cases a <;> rfl
  | succ k ih =>
    intro a r ha hr
    have hb : a * 2 ^ (k + 1) = a * 2 ^ k * 2 := by ring
    have h2 : 2 ^ (k + 1) = 2 ^ k * 2 := by ring
    have hmod : (a * 2 ^ (k + 1) + r) % 2 = r % 2 := by omega
    have hdiv : (a * 2 ^ (k + 1) + r) / 2 = a * 2 ^ k + r / 2 := by omega
    have hr2 : r / 2 < 2 ^ k := by omega
    have hL : revNat (k + 1 + 1) (a * 2 ^ (k + 1) + r) =
        (a * 2 ^ (k + 1) + r) % 2 * 2 ^ (k + 1) +
          revNat (k + 1) ((a * 2 ^ (k + 1) + r) / 2) := rfl
    have hR : revNat (k + 1) r = r % 2 * 2 ^ k + revNat k (r / 2) := rfl
    rw [hL, hmod, hdiv, ih a (r / 2) ha hr2, hR]
    ring

/-- Reversing the low `k` bits twice is the identity below `2 ^ k`. -/
theorem revNat_involution : ∀ k x : ℕ, x < 2 ^ k → revNat k (revNat k x) = x := by
  intro k
  induction k with
  | zero =>
    intro x hx
    interval_cases x
    rfl
  | succ k ih =>
    intro x hx
    have hx2 : x % 2 ≤ 1 := by omega
    have hxdiv : x / 2 < 2 ^ k := by
      have : 2 ^ (k + 1) = 2 ^ k * 2 := by ring
      omega
    have hstep : revNat (k + 1) x = x % 2 * 2 ^ k + revNat k (x / 2) := rfl
    rw [hstep, revNat_top k (x % 2) (revNat k (x / 2)) hx2 (revNat_lt k (x / 2)),
      ih (x / 2) hxdiv]
    omega

/-- Reversing with extra high zero bits shifts the reversal up. -/
theorem revNat_pad : ∀ k x : ℕ, x < 2 ^ k → ∀ m : ℕ, revNat (k + m) x = revNat k x * 2 ^ m := by
  intro k
  induction k with
  | zero =>
    intro x hx m
    interval_cases x
    rw [revNat_zero, revNat_zero, zero_mul]
  | succ k ih =>
    intro x hx m
    have hxdiv : x / 2 < 2 ^ k := by
      have : 2 ^ (k + 1) = 2 ^ k * 2 := by ring
      omega
    have hL : revNat (k + 1 + m) x = x % 2 * 2 ^ (k + m) + revNat (k + m) (x / 2) := by
      have : k + 1 + m = (k + m) + 1 := by ring
      rw [this]
      rfl
    rw [hL, ih (x / 2) hxdiv m]
    have hR : revNat (k + 1) x = x % 2 * 2 ^ k + revNat k (x / 2) := rfl
    rw [hR]
    ring

/-- The `u64` formula of `reverse_bits` computes the low-`log₂ order` bit
reversal on indices below the (power-of-two) order. -/
theorem reverse_bits_spec (k i : ℕ) (hk : k < 64) (hi : i < 2 ^ k) :
    reverse_bits i (2 ^ k) = some (revNat k i) := by
  unfold reverse_bits
  rw [if_neg (by simp [isPow2_two_pow])]
  congr 1
  have hbit : bitLen (2 ^ k) = k + 1 := by
    unfold bitLen
    rw [if_neg (by positivity), log2n_two_pow]
  have hshift : 65 - minNumBitsNeeded (2 ^ k) = 64 - k := by
    unfold minNumBitsNeeded u64LeadingZeros
    rw [hbit]
    omega
  have hmod : i % 2 ^ 64 = i := by
    apply Nat.mod_eq_of_lt
    calc i < 2 ^ k := hi
      _ ≤ 2 ^ 64 := Nat.pow_le_pow_right (by norm_num) (by omega)
  rw [hshift, hmod]
  have hpad : revNat 64 i = revNat k i * 2 ^ (64 - k) := by
    have h64 : k + (64 - k) = 64 := by omega
    calc revNat 64 i = revNat (k + (64 - k)) i := by rw [h64]
      _ = revNat k i * 2 ^ (64 - k) := revNat_pad k i hi (64 - k)
  rw [hpad, Nat.shiftRight_eq_div_pow, Nat.mul_div_cancel _ (by positivity)]

/-- Gathering over explicit indices whose reversals are valid positions
succeeds, and the result reads the vector under the reversal map. -/
theorem permAux_some {α : Type} (v : List α) (order : ℕ) (f : ℕ → ℕ) :
    ∀ idxs : List ℕ,
    (∀ i ∈ idxs, reverse_bits i order = some (f i) ∧ f i < v.length) →
    ∃ w, permAux v order idxs = some w ∧ w.length = idxs.length ∧
      ∀ j, j < idxs.length → w[j]? = v[f (idxs.getD j 0)]? := by
  intro idxs
  induction idxs with
  | nil =>
    intro _
    exact ⟨[], rfl, rfl, fun j hj => absurd hj (by simp)⟩
  | cons i is ih =>
    intro h
    obtain ⟨hrev, hlt⟩ := h i (List.mem_cons_self i is)
    obtain ⟨w, hw, hwlen, hwj⟩ := ih (fun x hx => h x (List.mem_cons_of_mem i hx))
    refine ⟨v[f i] :: w, ?_, by simpa using hwlen, ?_⟩
    · simp only [permAux, hrev, hw]
      rw [List.getElem?_eq_getElem hlt]
    · intro j hj
      cases j with
      | zero =>
        simp [List.getElem?_eq_getElem hlt]
      | succ j =>
        have hj' : j < is.length := by simpa using hj
        simpa using hwj j hj'

/-- C9: on any vector whose length is a power of two (`2 ^ k`, `k < 64`),
the bit-reversal permutation succeeds and applying it twice returns the
original vector. -/
theorem bit_reversal_involution {α : Type} (v : List α) (k : ℕ) (hk : k < 64)
    (hlen : v.length = 2 ^ k) :
    ∃ w, bit_reversal_permutation v = some w ∧ bit_reversal_permutation w = some v := by
  have hcond : ∀ i ∈ List.range (2 ^ k), reverse_bits i (2 ^ k) = some (revNat k i) ∧
      revNat k i < v.length := by
    intro i hi
    exact ⟨reverse_bits_spec k i hk (List.mem_range.mp hi), by rw [hlen]; exact revNat_lt k i⟩
  obtain ⟨w, hw, hwlen, hwj⟩ := permAux_some v (2 ^ k) (revNat k) (List.range (2 ^ k))
    (by simpa using hcond)
  have hwlen' : w.length = 2 ^ k := by simpa using hwlen
  have hgetw : ∀ j, j < 2 ^ k → w[j]? = v[revNat k j]? := by
    intro j hj
    have := hwj j (by simpa using hj)
    rwa [List.getD_eq_getElem _ _ (by simpa using hj), List.getElem_range] at this
  obtain ⟨w2, hw2, hw2len, hw2j⟩ := permAux_some w (2 ^ k) (revNat k) (List.range (2 ^ k))
    (by
      intro i hi
      exact ⟨reverse_bits_spec k i hk (List.mem_range.mp hi),
        by rw [hwlen']; exact revNat_lt k i⟩)
  have hw2len' : w2.length = 2 ^ k := by simpa using hw2len
  have hw2v : w2 = v := by
    apply List.ext_getElem?
    intro j
    by_cases hj : j < 2 ^ k
    · have h1 := hw2j j (by simpa using hj)
      rw [List.getD_eq_getElem _ _ (by simpa using hj), List.getElem_range] at h1
      rw [h1, hgetw (revNat k j) (revNat_lt k j), revNat_involution k j hj]
    · rw [List.getElem?_eq_none (by omega : w2.length ≤ j),
        List.getElem?_eq_none (by omega : v.length ≤ j)]
  refine ⟨w, ?_, ?_⟩
  · unfold bit_reversal_permutation
    rw [hlen]
    exact hw
  · unfold bit_reversal_permutation
    rw [hwlen']
    rw [hw2, hw2v]

/-- Witness for C9 on a vector of length 4. -/
theorem bit_reversal_involution_witness :
    ∃ w, bit_reversal_permutation [10, 20, 30, 40] = some w ∧
      bit_reversal_permutation w = some [10, 20, 30, 40] :=
  bit_reversal_involution [10, 20, 30, 40] 2 (by decide) (by decide)

/-! ## C8: domain construction invariants -/

/-- The padded size is a power of two. -/
theorem sizePad_pow2 (s : ℕ) : ∃ k, (if isPow2 s then s else nextPow2 s) = 2 ^ k := by
  by_cases h : isPow2 s
  · refine ⟨log2n s, ?_⟩
    rw [if_pos h]
    exact Nat.eq_of_beq_eq_true (by simpa [isPow2] using h)
  · rw [if_neg h]
    unfold nextPow2
    by_cases h1 : s ≤ 1
    · exact ⟨0, by rw [if_pos h1]; rfl⟩
    · exact ⟨log2n (s - 1) + 1, by rw [if_neg h1]⟩

/-- Length of the iteratively built roots vector. -/
theorem rootsAux_length (g : Fr) : ∀ (n : ℕ) (a : Fr), (rootsAux g a n).length = n := by
  intro n
  induction n with
  | zero => intro a; rfl
  | succ n ih => intro a; simp [rootsAux, ih]

/-- The iteratively built roots are the geometric progression. -/
theorem rootsAux_getD (g : Fr) : ∀ (n : ℕ) (a : Fr) (i : ℕ), i < n →
    (rootsAux g a n).getD i 0 = a * g ^ i := by
  intro n
  induction n with
  | zero => intro a i hi; omega
  | succ n ih =>
    intro a i hi
    cases i with
    | zero => simp [rootsAux]
    | succ i =>
      have : (rootsAux g a (n + 1)).getD (i + 1) 0 = (rootsAux g (a * g) n).getD i 0 := rfl
      rw [this, ih (a * g) i (by omega), pow_succ]
      ring

/-- The fixed two-adic root has order dividing `2^32` (raising it to `2^32`
gives 1). -/
theorem largestRoot_pow_two_32 : largestRootOfUnity ^ (2 ^ 32) = 1 := by
  have hval : powModAux 300 rBLS
      10238227357739495823651030575849232062558860180284477541189508159991286009131
      (2 ^ 32) = 1 := by decide
  have h := castPowModAux 300
    10238227357739495823651030575849232062558860180284477541189508159991286009131
    (2 ^ 32) rBLS (by norm_num)
  rw [hval] at h
  rw [largestRootOfUnity]
  rw [← h]
  norm_num

/-- Non-vanishing of the padded size in the scalar field. -/
theorem size_cast_ne_zero (k : ℕ) (hk : k ≤ 32) : ((2 ^ k : ℕ) : Fr) ≠ 0 := by
  intro h
  have hdvd : rBLS ∣ 2 ^ k := (ZMod.natCast_zmod_eq_zero_iff_dvd _ _).mp h
  have hle : rBLS ≤ 2 ^ k := Nat.le_of_dvd (by positivity) hdvd
  have hle2 : (2 : ℕ) ^ k ≤ 2 ^ 32 := Nat.pow_le_pow_right (by norm_num) hk
  have : (2 : ℕ) ^ 32 < rBLS := by decide
  omega

/-- C8: for every requested size whose padded power-of-two size `n` has
`log₂ n ≤ 32`, `Domain::new` succeeds and the domain satisfies
`roots[0] = 1`, `roots[i] · ω = roots[(i+1) mod n]` for every `i < n`
(including the wrap-around, i.e. `ω^n = 1`), and
`domain_size · domain_size⁻¹ = 1`. -/
theorem domain_new_invariants (s n : ℕ)
    (hn : n = if isPow2 s then s else nextPow2 s) (hk : log2n n ≤ 32) :
    ∃ d, domainNew s = some d ∧
      d.roots.length = n ∧
      d.roots.getD 0 0 = 1 ∧
      (∀ i, i < n → d.roots.getD i 0 * d.generator = d.roots.getD ((i + 1) % n) 0) ∧
      d.domainSize * d.domainSizeInv = 1 := by
  obtain ⟨k, hk2⟩ := sizePad_pow2 s
  rw [← hn] at hk2
  subst hk2
  rw [log2n_two_pow] at hk
  have hgen_eq : frPow largestRootOfUnity (2 ^ (32 - log2n (2 ^ k))) =
      largestRootOfUnity ^ (2 ^ (32 - k)) := by
    rw [log2n_two_pow]
    apply frPow_eq
    calc (2 : ℕ) ^ (32 - k) ≤ 2 ^ 32 := Nat.pow_le_pow_right (by norm_num) (by omega)
      _ < 2 ^ 300 := by norm_num
  have hg0 : largestRootOfUnity ≠ 0 := by decide
  have hgen_ne : largestRootOfUnity ^ (2 ^ (32 - k)) ≠ 0 := pow_ne_zero _ hg0
  have hcast_ne : ((2 ^ k : ℕ) : Fr) ≠ 0 := size_cast_ne_zero k hk
  have hcg : computeGeneratorForSize (2 ^ k) =
      some (largestRootOfUnity ^ (2 ^ (32 - k))) := by
    unfold computeGeneratorForSize
    rw [if_neg (by simp [isPow2_two_pow]), if_neg (by rw [log2n_two_pow]; omega), hgen_eq]
  have hgenN : (largestRootOfUnity ^ (2 ^ (32 - k))) ^ (2 ^ k) = 1 := by
    rw [← pow_mul, ← pow_add]
    have : 32 - k + k = 32 := by omega
    rw [this]
    exact largestRoot_pow_two_32
  refine ⟨⟨rootsAux (largestRootOfUnity ^ (2 ^ (32 - k))) 1 (2 ^ k), ((2 ^ k : ℕ) : Fr),
    frInvert ((2 ^ k : ℕ) : Fr), largestRootOfUnity ^ (2 ^ (32 - k)),
    frInvert (largestRootOfUnity ^ (2 ^ (32 - k)))⟩, ?_, ?_, ?_, ?_, ?_⟩
  · simp only [domainNew, ← hn, hcg]
    rw [if_neg (by simpa using hgen_ne), if_neg (by simpa using hcast_ne)]
  · exact rootsAux_length _ _ _
  · rw [rootsAux_getD _ _ _ 0 (by positivity)]
    simp
  · intro i hi
    rw [rootsAux_getD _ _ _ i hi]
    by_cases hlast : i + 1 < 2 ^ k
    · rw [Nat.mod_eq_of_lt hlast, rootsAux_getD _ _ _ (i + 1) hlast, pow_succ]
      ring
    · have hieq : i + 1 = 2 ^ k := by omega
      rw [hieq, Nat.mod_self, rootsAux_getD _ _ _ 0 (by positivity)]
      have : (1 : Fr) * (largestRootOfUnity ^ (2 ^ (32 - k))) ^ i *
          largestRootOfUnity ^ (2 ^ (32 - k)) =
          (largestRootOfUnity ^ (2 ^ (32 - k))) ^ (i + 1) := by
        rw [pow_succ]
        ring
      rw [this, hieq, hgenN]
      simp
  · simp only [frInvert_eq]
    exact mul_inv_cancel₀ hcast_ne

/-- Witness for C8 at the requested size 4. -/
theorem domain_new_invariants_witness :
    ∃ d, domainNew 4 = some d ∧
      d.roots.length = 4 ∧
      d.roots.getD 0 0 = 1 ∧
      (∀ i, i < 4 → d.roots.getD i 0 * d.generator = d.roots.getD ((i + 1) % 4) 0) ∧
      d.domainSize * d.domainSizeInv = 1 :=
  domain_new_invariants 4 4 (by decide) (by decide)

/-! ## Shared bookkeeping for the aggregated protocol (C1, C4) -/

/-- Length of the powers vector. -/
theorem computePowersAux_length (x : Fr) : ∀ (n : ℕ) (acc : Fr),
    (computePowersAux x acc n).length = n := by
  intro n
  induction n with
  | zero => intro acc; rfl
  | succ n ih => intro acc; simp [computePowersAux, ih]

/-- Entries of the powers vector. -/
theorem computePowersAux_getD (x : Fr) : ∀ (n : ℕ) (acc : Fr) (j : ℕ), j < n →
    (computePowersAux x acc n).getD j 0 = acc * x ^ j := by
  intro n
  induction n with
  | zero => intro acc j hj; omega
  | succ n ih =>
    intro acc j hj
    cases j with
    | zero => simp [computePowersAux]
    | succ j =>
      have : (computePowersAux x acc (n + 1)).getD (j + 1) 0 =
          (computePowersAux x (acc * x) n).getD j 0 := rfl
      rw [this, ih (acc * x) j (by omega), pow_succ]
      ring

/-- The powers vector has the right length. -/
theorem compute_powers_length (x : Fr) (n : ℕ) : (compute_powers x n).length = n :=
  computePowersAux_length x n 1

/-- The powers vector lists the powers of the challenge. -/
theorem compute_powers_getD (x : Fr) (n j : ℕ) (hj : j < n) :
    (compute_powers x n).getD j 0 = x ^ j := by
  rw [compute_powers, computePowersAux_getD x n 1 j hj, one_mul]

/-- Element access through `zipWith`. -/
theorem getD_zipWith (f : Fr → Fr → Fr) : ∀ (a b : List Fr) (i : ℕ), i < a.length →
    i < b.length → (List.zipWith f a b).getD i 0 = f (a.getD i 0) (b.getD i 0) := by
  intro a
  induction a with
  | nil => intro b i hi _; simp at hi
  | cons x a ih =>
    intro b i hia hib
    cases b with
    | nil => simp at hib
    | cons y b =>
      cases i with
      | zero => rfl
      | succ i =>
        have h1 : (List.zipWith f (x :: a) (y :: b)).getD (i + 1) 0 =
            (List.zipWith f a b).getD i 0 := rfl
        rw [h1, ih b i (by simpa using hia) (by simpa using hib)]
        rfl

/-- Scaling the rows of a matrix whose rows all have power-of-two length
succeeds and is plain `zipWith`. -/
theorem scaledRows_some : ∀ (matrix : List (List Fr)) (scalars : List Fr),
    (∀ p ∈ matrix, isPow2 p.length) →
    scaledRows matrix scalars =
      some (List.zipWith (fun p s => p.map (fun e => e * s)) matrix scalars) := by
  intro matrix
  induction matrix with
  | nil => intro scalars _; cases scalars <;> rfl
  | cons p ps ih =>
    intro scalars h
    cases scalars with
    | nil => rfl
    | cons s ss =>
      have hp : isPow2 p.length := h p (List.mem_cons_self p ps)
      have hscale : scalePolynomial p s = some (p.map (fun e => e * s)) := by
        unfold scalePolynomial polynomialNew
        rw [if_pos (by simpa using hp)]
      simp only [scaledRows, hscale, ih ss (fun q hq => h q (List.mem_cons_of_mem p hq))]
      rfl

/-- Rows of the scaled matrix keep the common length. -/
theorem zipWith_scale_lengths (n : ℕ) : ∀ (matrix : List (List Fr)) (scalars : List Fr),
    (∀ p ∈ matrix, p.length = n) →
    ∀ q ∈ List.zipWith (fun p s => p.map (fun e => e * s)) matrix scalars, q.length = n := by
  intro matrix
  induction matrix with
  | nil => intro scalars _ q hq; simp at hq
  | cons p ps ih =>
    intro scalars h q hq
    cases scalars with
    | nil => simp at hq
    | cons s ss =>
      rcases List.mem_cons.mp hq with rfl | hmem
      · rw [List.length_map]
        exact h p (List.mem_cons_self p ps)
      · exact ih ss (fun r hr => h r (List.mem_cons_of_mem p hr)) q hmem

/-- The additive fold of equal-length rows keeps the length and sums the
entries position-wise. -/
theorem fold_add_spec : ∀ (rows : List (List Fr)) (init : List Fr),
    (∀ q ∈ rows, q.length = init.length) →
    (rows.foldl (fun sum v => List.zipWith (fun a b => a + b) sum v) init).length =
        init.length ∧
    ∀ i, i < init.length →
      (rows.foldl (fun sum v => List.zipWith (fun a b => a + b) sum v) init).getD i 0 =
        init.getD i 0 + (rows.map (fun q => q.getD i 0)).sum := by
  intro rows
  induction rows with
  | nil =>
    intro init _
    exact ⟨rfl, fun i _ => by simp⟩
  | cons q rows ih =>
    intro init h
    have hq : q.length = init.length := h q (List.mem_cons_self q rows)
    have hzlen : (List.zipWith (fun a b => a + b) init q).length = init.length := by
      rw [List.length_zipWith, hq, Nat.min_self]
    have hrows : ∀ r ∈ rows, r.length = (List.zipWith (fun a b => a + b) init q).length := by
      intro r hr
      rw [hzlen]
      exact h r (List.mem_cons_of_mem q hr)
    obtain ⟨hlen, hsum⟩ := ih (List.zipWith (fun a b => a + b) init q) hrows
    constructor
    · simpa [hzlen] using hlen
    · intro i hi
      have hstep := hsum i (by rwa [hzlen])
      simp only [List.foldl_cons]
      rw [hstep, getD_zipWith _ init q i hi (by omega), List.map_cons, List.sum_cons]
      ring

/-- Entry `i` of a scaled row is the scaled entry. -/
theorem zipWith_getD_scale (i n : ℕ) (hi : i < n) : ∀ (matrix : List (List Fr))
    (scalars : List Fr), (∀ p ∈ matrix, p.length = n) →
    List.zipWith (fun p s => (p.map (fun e => e * s)).getD i 0) matrix scalars =
      List.zipWith (fun p s => p.getD i 0 * s) matrix scalars := by
  intro matrix
  induction matrix with
  | nil => intro scalars _; rfl
  | cons p ps ih =>
    intro scalars h
    cases scalars with
    | nil => rfl
    | cons s ss =>
      have hp : i < p.length := by rw [h p (List.mem_cons_self p ps)]; exact hi
      have hhead : (p.map (fun e => e * s)).getD i 0 = p.getD i 0 * s := by
        rw [List.getD_eq_getElem _ _ (by simpa using hp), List.getElem_map,
          List.getD_eq_getElem _ _ hp]
      simp only [List.zipWith_cons_cons, hhead,
        ih ss (fun q hq => h q (List.mem_cons_of_mem p hq))]

/-- Characterisation of `matrix_lincomb`: on a non-empty matrix whose rows
share a power-of-two length `n` it succeeds, the result has length `n`, and
entry `i` is the inner product of column `i` with the scalars. -/
theorem matrixLincomb_spec (matrix : List (List Fr)) (scalars : List Fr) (n : ℕ)
    (hm : matrix ≠ []) (hsame : ∀ p ∈ matrix, p.length = n) (hn2 : isPow2 n) :
    ∃ agg, matrixLincomb matrix scalars = some agg ∧ agg.length = n ∧
      ∀ i, i < n → agg.getD i 0 =
        (List.zipWith (fun p s => p.getD i 0 * s) matrix scalars).sum := by
  obtain ⟨p0, rest, rfl⟩ : ∃ p0 rest, matrix = p0 :: rest := by
    cases matrix with
    | nil => exact absurd rfl hm
    | cons p0 rest => exact ⟨p0, rest, rfl⟩
  have hp0 : p0.length = n := hsame p0 (List.mem_cons_self p0 rest)
  have hinit : (List.replicate p0.length (0 : Fr)).length = n := by
    rw [List.length_replicate, hp0]
  obtain ⟨hlen, hsum⟩ := fold_add_spec
    (List.zipWith (fun p s => p.map (fun e => e * s)) (p0 :: rest) scalars)
    (List.replicate p0.length 0)
    (fun q hq => by rw [hinit]; exact zipWith_scale_lengths n (p0 :: rest) scalars hsame q hq)
  have hml : matrixLincomb (p0 :: rest) scalars =
      polynomialNew ((List.zipWith (fun p s => p.map (fun e => e * s)) (p0 :: rest)
        scalars).foldl (fun sum v => List.zipWith (fun a b => a + b) sum v)
        (List.replicate p0.length 0)) := by
    simp only [matrixLincomb,
      scaledRows_some (p0 :: rest) scalars (fun p hp => by rw [hsame p hp]; exact hn2)]
  refine ⟨(List.zipWith (fun p s => p.map (fun e => e * s)) (p0 :: rest) scalars).foldl
    (fun sum v => List.zipWith (fun a b => a + b) sum v) (List.replicate p0.length 0),
    ?_, ?_, ?_⟩
  · rw [hml]
    unfold polynomialNew
    rw [if_pos (by rw [hlen, hinit]; exact hn2)]
  · rw [hlen, hinit]
  · intro i hi
    have hz : (List.replicate p0.length (0 : Fr)).getD i 0 = 0 := by
      rw [List.getD_eq_getElem _ _ (by rw [List.length_replicate, hp0]; exact hi),
        List.getElem_replicate]
    rw [hsum i (by rw [hinit]; exact hi), hz, zero_add]
    simp only [List.map_zipWith]
    rw [zipWith_getD_scale i n hi (p0 :: rest) scalars hsame]

/-- The MSM on equal-length inputs is the plain inner product. -/
theorem g1Lincomb_eq (points scalars : List Fr) (h : points.length = scalars.length) :
    g1Lincomb points scalars =
      some (List.zipWith (fun s p => s * p) scalars points).sum := by
  unfold g1Lincomb
  rw [if_pos h]

/-- Sum of a `zipWith` of two lists of length `m` as a `Finset.range` sum. -/
theorem zipWith_sum_range (f : Fr → Fr → Fr) : ∀ (m : ℕ) (a b : List Fr),
    a.length = m → b.length = m →
    (List.zipWith f a b).sum = ∑ j ∈ Finset.range m, f (a.getD j 0) (b.getD j 0) := by
  intro m
  induction m with
  | zero =>
    intro a b ha hb
    rw [List.length_eq_zero.mp ha, List.length_eq_zero.mp hb]
    simp
  | succ m ih =>
    intro a b ha hb
    cases a with
    | nil => simp at ha
    | cons x a =>
      cases b with
      | nil => simp at hb
      | cons y b =>
        rw [List.zipWith_cons_cons, List.sum_cons, Finset.sum_range_succ',
          ih a b (by simpa using ha) (by simpa using hb)]
        exact add_comm _ _

/-- A left fold of additions over `List.range` is the `Finset.range` sum. -/
theorem foldl_range_add (g : ℕ → Fr) : ∀ (n : ℕ),
    (List.range n).foldl (fun acc i => acc + g i) 0 = ∑ i ∈ Finset.range n, g i := by
  intro n
  induction n with
  | zero => rfl
  | succ n ih =>
    rw [List.range_succ, List.foldl_append, ih, Finset.sum_range_succ]
    rfl

/-- Appending a list of polynomials concatenates their encodings. -/
theorem foldl_appendPolynomial_bytes : ∀ (polys : List (List Fr)) (t : Transcript),
    (polys.foldl Transcript.appendPolynomial t).bytes =
      t.bytes ++ (polys.map (fun p => (p.map scalarBytesLE).flatten)).flatten := by
  intro polys
  induction polys with
  | nil => intro t; simp
  | cons p ps ih =>
    intro t
    rw [List.foldl_cons, ih]
    simp [Transcript.appendPolynomial, Transcript.appendBytes]

/-- Appending a list of points concatenates their encodings. -/
theorem foldl_appendG1_bytes {π : Type} (serG1 : π → List ℕ) : ∀ (comms : List π)
    (t : Transcript), (comms.foldl (Transcript.appendG1Point serG1) t).bytes =
      t.bytes ++ (comms.map serG1).flatten := by
  intro comms
  induction comms with
  | nil => intro t; simp
  | cons c cs ih =>
    intro t
    rw [List.foldl_cons, ih]
    simp [Transcript.appendG1Point, Transcript.appendBytes]

/-- The first-challenge buffer of the aggregated prover and verifier is the
bare concatenation of the polynomial encodings followed by the point
encodings: no protocol label and no length prefixes. -/
theorem aggregateFirstHashInput_eq (serG1 : Fr → List ℕ) (polys : List (List Fr))
    (polyComms : List Fr) :
    aggregateFirstHashInput serG1 polys polyComms =
      (polys.map (fun p => (p.map scalarBytesLE).flatten)).flatten ++
        (polyComms.map serG1).flatten := by
  unfold aggregateFirstHashInput
  rw [foldl_appendG1_bytes serG1 polyComms, foldl_appendPolynomial_bytes]
  simp [Transcript.new]

/-- The aggregation challenge `r` both sides derive: one squeeze over the
unlabelled transcript holding the polynomials and the commitments. -/
def aggChallengeR (serG1 : Fr → List ℕ) (polys : List (List Fr)) (polyComms : List Fr) : Fr :=
  unreducedBytesToScalar (sha256 (sha256 (aggregateFirstHashInput serG1 polys polyComms) ++ [0]))

/-- The single-challenge squeeze written out: hash the buffer, then hash the
state with the counter byte 0, and keep the state as the new buffer. -/
theorem challengeScalar_eq (t : Transcript) :
    t.challengeScalar =
      (unreducedBytesToScalar (sha256 (sha256 t.bytes ++ [0])), ⟨sha256 t.bytes⟩) := rfl

/-- Behaviour of `compute_aggregate_poly_and_comm` on a batch of equally
many polynomials and commitments, the polynomials sharing a power-of-two
length: the call succeeds, the challenge is `aggChallengeR`, the aggregate
polynomial is the `matrix_lincomb` by its powers, the aggregate commitment
is the matching MSM, and the returned transcript holds the SHA-256 state of
the appended buffer. -/
theorem compute_aggregate_spec (serG1 : Fr → List ℕ) (polys : List (List Fr))
    (polyComms : List Fr) (n : ℕ) (hm : polys ≠ [])
    (hlen : polys.length = polyComms.length)
    (hsame : ∀ p ∈ polys, p.length = n) (hn2 : isPow2 n) :
    ∃ agg, matrixLincomb polys
        (compute_powers (aggChallengeR serG1 polys polyComms) polyComms.length) = some agg ∧
      compute_aggregate_poly_and_comm serG1 Transcript.new polys polyComms =
        some (agg,
          (List.zipWith (fun s p => s * p)
            (compute_powers (aggChallengeR serG1 polys polyComms) polyComms.length)
            polyComms).sum,
          ⟨sha256 (aggregateFirstHashInput serG1 polys polyComms)⟩,
          aggChallengeR serG1 polys polyComms) := by
  obtain ⟨agg, hagg, -, -⟩ := matrixLincomb_spec polys
    (compute_powers (aggChallengeR serG1 polys polyComms) polyComms.length) n hm hsame hn2
  refine ⟨agg, hagg, ?_⟩
  simp only [compute_aggregate_poly_and_comm]
  rw [if_neg (fun hc => hc hlen)]
  have e1 : (polyComms.foldl (Transcript.appendG1Point serG1)
      (polys.foldl Transcript.appendPolynomial Transcript.new)).challengeScalar.1 =
      aggChallengeR serG1 polys polyComms := rfl
  have e2 : (polyComms.foldl (Transcript.appendG1Point serG1)
      (polys.foldl Transcript.appendPolynomial Transcript.new)).challengeScalar.2 =
      (⟨sha256 (aggregateFirstHashInput serG1 polys polyComms)⟩ : Transcript) := rfl
  rw [e1, e2, hagg,
    g1Lincomb_eq polyComms _ (compute_powers_length (aggChallengeR serG1 polys polyComms)
      polyComms.length).symm]

/-! ## C1: the aggregated prover's transcript -/

/-- Empty point encoding used to instantiate witnesses. -/
def serNull : Fr → List ℕ := fun _ => []

/-- Modelled from the spec: the transcript behaviour claim C1 attributes to
the aggregated prover — a transcript carrying the protocol label, one
batched `append_polys_and_points` call (with both 8-byte length prefixes),
both challenges drawn from a single `challenge_scalars(2)` squeeze, and the
quotient commitment of the single-opening proof of the powers-of-`r`
aggregate at `z` as the result. -/
def claimC1 (serG1 : Fr → List ℕ) (ck : List Fr) (polys : List (List Fr))
    (polyComms : List Fr) (d : RootsU) : Prop :=
  ∃ t1, Transcript.withProtocolName.appendPolysPoints serG1 polys polyComms = some t1 ∧
    aggregateFirstHashInput serG1 polys polyComms = t1.bytes ∧
    ∀ r z t2, t1.challengeScalars 2 = ([r, z], t2) →
      aggregatedCreate serG1 ck polys polyComms d =
        (matrixLincomb polys (compute_powers r polys.length)).bind (fun agg =>
          (g1Lincomb polyComms (compute_powers r polys.length)).bind (fun aggComm =>
            (kzgProofCreate ck agg aggComm z d).bind (fun pr => some pr.2.1)))

set_option maxRecDepth 100000 in
/-- Counterexample to C1: already on the batch of the single zero
polynomial, the buffer the prover hashes for its first challenge (no label,
no length prefixes) differs from the buffer of the claimed labelled
transcript. -/
theorem create_transcript_counterexample :
    ¬ claimC1 (fun _ => List.replicate 48 192) [1] [[0]] [0] ⟨[1], 1⟩ := by
  rintro ⟨t1, h1, h2, -⟩
  have hT : some t1 = some (⟨protocolLabelBytes ++ leBytes 8 1 ++ leBytes 8 1 ++
      leBytes 32 0 ++ List.replicate 48 192⟩ : Transcript) := by
    rw [← h1]
    decide
  obtain rfl := Option.some.inj hT
  exact absurd h2 (by decide)

/-- Amended C1: what `AggregatedKZG::create` actually hashes and returns.
The transcript is unlabelled and unprefixed: the aggregation challenge
(inside `aggChallengeR`) hashes the bare concatenation of the polynomial
and point encodings; the evaluation challenge is a second, separate squeeze
over the SHA-256 state with the aggregate polynomial and commitment
appended; and the result is the quotient commitment of the single-opening
proof of the powers-of-`r` aggregate at that challenge. -/
theorem aggregated_create_amended (serG1 : Fr → List ℕ) (ck : List Fr)
    (polys : List (List Fr)) (polyComms : List Fr) (d : RootsU) (n : ℕ)
    (hm : polys ≠ []) (hlen : polys.length = polyComms.length)
    (hsame : ∀ p ∈ polys, p.length = n) (hn2 : isPow2 n) :
    ∃ agg aggComm,
      matrixLincomb polys (compute_powers (aggChallengeR serG1 polys polyComms)
        polyComms.length) = some agg ∧
      g1Lincomb polyComms (compute_powers (aggChallengeR serG1 polys polyComms)
        polyComms.length) = some aggComm ∧
      aggregateFirstHashInput serG1 polys polyComms =
        (polys.map (fun p => (p.map scalarBytesLE).flatten)).flatten ++
          (polyComms.map serG1).flatten ∧
      aggChallengeZ serG1 polys polyComms =
        some (unreducedBytesToScalar (sha256 (sha256
          (sha256 (aggregateFirstHashInput serG1 polys polyComms) ++
            (agg.map scalarBytesLE).flatten ++ serG1 aggComm) ++ [0]))) ∧
      aggregatedCreate serG1 ck polys polyComms d =
        (kzgProofCreate ck agg aggComm
          (unreducedBytesToScalar (sha256 (sha256
            (sha256 (aggregateFirstHashInput serG1 polys polyComms) ++
              (agg.map scalarBytesLE).flatten ++ serG1 aggComm) ++ [0]))) d).bind
          (fun pr => some pr.2.1) := by
  obtain ⟨agg, hagg, hca⟩ := compute_aggregate_spec serG1 polys polyComms n hm hlen hsame hn2
  refine ⟨agg, _, hagg, g1Lincomb_eq polyComms _ (compute_powers_length _ _).symm,
    aggregateFirstHashInput_eq serG1 polys polyComms, ?_, ?_⟩
  · unfold aggChallengeZ
    rw [hca]
    rfl
  · unfold aggregatedCreate
    rw [hca]
    rfl

set_option maxRecDepth 1000000 in
/-- Witness for the amended C1: the batch of the single constant polynomial
`[1]` with commitment `1`, the empty point encoding and the trivial
domain. -/
theorem aggregated_create_amended_witness :
    ([[(1 : Fr)]] : List (List Fr)) ≠ [] ∧ isPow2 1 = true ∧
    ∃ agg aggComm,
      matrixLincomb [[(1 : Fr)]] (compute_powers (aggChallengeR serNull [[1]] [1])
        ([(1 : Fr)] : List Fr).length) = some agg ∧
      g1Lincomb [(1 : Fr)] (compute_powers (aggChallengeR serNull [[1]] [1])
        ([(1 : Fr)] : List Fr).length) = some aggComm ∧
      aggregateFirstHashInput serNull [[1]] [1] =
        (([[(1 : Fr)]] : List (List Fr)).map (fun p => (p.map scalarBytesLE).flatten)).flatten
          ++ (([(1 : Fr)] : List Fr).map serNull).flatten ∧
      aggChallengeZ serNull [[1]] [1] =
        some (unreducedBytesToScalar (sha256 (sha256
          (sha256 (aggregateFirstHashInput serNull [[1]] [1]) ++
            (agg.map scalarBytesLE).flatten ++ serNull aggComm) ++ [0]))) ∧
      aggregatedCreate serNull [1] [[1]] [1] ⟨[1], 1⟩ =
        (kzgProofCreate [1] agg aggComm
          (unreducedBytesToScalar (sha256 (sha256
            (sha256 (aggregateFirstHashInput serNull [[1]] [1]) ++
              (agg.map scalarBytesLE).flatten ++ serNull aggComm) ++ [0]))) ⟨[1], 1⟩).bind
          (fun pr => some pr.2.1) :=
  ⟨by decide, by decide, aggregated_create_amended serNull [1] [[1]] [1] ⟨[1], 1⟩ 1
    (by decide) rfl (by decide) (by decide)⟩

/-! ## C4: the aggregated round-trip -/

/-- Positional access into a mapped range. -/
theorem getD_map_range (f : ℕ → Fr) (n i : ℕ) (hi : i < n) :
    ((List.range n).map f).getD i 0 = f i := by
  rw [List.getD_eq_getElem _ _ (by simpa using hi), List.getElem_map, List.getElem_range]

/-- Double-sum core of the root-of-unity fraction identity: summing
`ω^i · Σ_j w^j (ω^i)^(n-1-j)` over the domain collapses to `n`. -/
theorem sum_inner_pows (ω w : Fr) (n : ℕ) (hω : IsPrimitiveRoot ω n) (hn0 : 0 < n) :
    ∑ i ∈ Finset.range n, ω ^ i * ∑ j ∈ Finset.range n, w ^ j * (ω ^ i) ^ (n - 1 - j)
      = (n : Fr) := by
  have step1 : ∀ i ∈ Finset.range n,
      ω ^ i * ∑ j ∈ Finset.range n, w ^ j * (ω ^ i) ^ (n - 1 - j)
        = ∑ j ∈ Finset.range n, w ^ j * (ω ^ (n - j)) ^ i := by
    intro i hi
    rw [Finset.mul_sum]
    refine Finset.sum_congr rfl (fun j hj => ?_)
    have hjn : j < n := Finset.mem_range.mp hj
    have hexp : i + i * (n - 1 - j) = (n - j) * i := by
      have h1 : 1 + (n - 1 - j) = n - j := by omega
      calc i + i * (n - 1 - j) = i * (1 + (n - 1 - j)) := by ring
        _ = i * (n - j) := by rw [h1]
        _ = (n - j) * i := by ring
    calc ω ^ i * (w ^ j * (ω ^ i) ^ (n - 1 - j))
        = w ^ j * (ω ^ i * ω ^ (i * (n - 1 - j))) := by rw [← pow_mul]; ring
      _ = w ^ j * ω ^ (i + i * (n - 1 - j)) := by rw [← pow_add]
      _ = w ^ j * ω ^ ((n - j) * i) := by rw [hexp]
      _ = w ^ j * (ω ^ (n - j)) ^ i := by rw [pow_mul]
  rw [Finset.sum_congr rfl step1, Finset.sum_comm]
  have inner : ∀ j ∈ Finset.range n,
      (∑ i ∈ Finset.range n, w ^ j * (ω ^ (n - j)) ^ i)
        = if j = 0 then (n : Fr) else 0 := by
    intro j hj
    have hjn : j < n := Finset.mem_range.mp hj
    rw [← Finset.mul_sum]
    by_cases hj0 : j = 0
    · subst hj0
      rw [if_pos rfl]
      simp [Nat.sub_zero, hω.pow_eq_one, Finset.sum_const, Finset.card_range]
    · rw [if_neg hj0]
      have hne : ω ^ (n - j) ≠ 1 :=
        hω.pow_ne_one_of_pos_of_lt (by omega) (by omega)
      have hxn : (ω ^ (n - j)) ^ n = 1 := by
        rw [← pow_mul, mul_comm, pow_mul, hω.pow_eq_one, one_pow]
      rw [geom_sum_eq hne, hxn, sub_self, zero_div, mul_zero]
  rw [Finset.sum_congr rfl inner, Finset.sum_ite_eq' (Finset.range n) 0 (fun _ => (n : Fr))]
  rw [if_pos (Finset.mem_range.mpr hn0)]

/-- For `w` outside the domain of the `n`-th roots of unity,
`Σ_i ω^i / (w - ω^i) = n / (w^n - 1)`. -/
theorem sum_root_fracs (ω w : Fr) (n : ℕ) (hω : IsPrimitiveRoot ω n) (hn0 : 0 < n)
    (hw : ∀ i, i < n → w - ω ^ i ≠ 0) (hwn : w ^ n - 1 ≠ 0) :
    ∑ i ∈ Finset.range n, ω ^ i * (w - ω ^ i)⁻¹ = (n : Fr) * (w ^ n - 1)⁻¹ := by
  have key : ∀ i ∈ Finset.range n, ω ^ i * (w - ω ^ i)⁻¹ * (w ^ n - 1) =
      ω ^ i * ∑ j ∈ Finset.range n, w ^ j * (ω ^ i) ^ (n - 1 - j) := by
    intro i hi
    have hgeom := geom_sum₂_mul w (ω ^ i) n
    have hpow : (ω ^ i) ^ n = 1 := by
      rw [← pow_mul, mul_comm, pow_mul, hω.pow_eq_one, one_pow]
    rw [hpow] at hgeom
    rw [mul_assoc, ← hgeom]
    congr 1
    rw [mul_comm (∑ j ∈ Finset.range n, w ^ j * (ω ^ i) ^ (n - 1 - j)) (w - ω ^ i),
      ← mul_assoc, inv_mul_cancel₀ (hw i (Finset.mem_range.mp hi)), one_mul]
  have h1 : (∑ i ∈ Finset.range n, ω ^ i * (w - ω ^ i)⁻¹) * (w ^ n - 1) = (n : Fr) := by
    rw [Finset.sum_mul, Finset.sum_congr rfl key]
    exact sum_inner_pows ω w n hω hn0
  calc ∑ i ∈ Finset.range n, ω ^ i * (w - ω ^ i)⁻¹
      = (∑ i ∈ Finset.range n, ω ^ i * (w - ω ^ i)⁻¹) * ((w ^ n - 1) * (w ^ n - 1)⁻¹) := by
        rw [mul_inv_cancel₀ hwn, mul_one]
    _ = ((∑ i ∈ Finset.range n, ω ^ i * (w - ω ^ i)⁻¹) * (w ^ n - 1)) * (w ^ n - 1)⁻¹ := by
        ring
    _ = (n : Fr) * (w ^ n - 1)⁻¹ := by rw [h1]

/-- The KZG division identity over the Lagrange coefficients: with `y` the
barycentric evaluation of the values `a` at `z`, the committed quotient
satisfies the pairing-check equation `P(τ) - y = Q(τ)·(τ - z)`. -/
theorem kzg_division_identity (ω τ z y : Fr) (n : ℕ) (a : ℕ → Fr)
    (hω : IsPrimitiveRoot ω n) (hn0 : 0 < n) (hnF : (n : Fr) ≠ 0)
    (hτ : ∀ i, i < n → τ - ω ^ i ≠ 0) (hτn : τ ^ n - 1 ≠ 0)
    (hz : ∀ i, i < n → z - ω ^ i ≠ 0) (hzn : z ^ n - 1 ≠ 0)
    (hy : y = (∑ i ∈ Finset.range n, a i * ω ^ i * (z - ω ^ i)⁻¹) * (z ^ n - 1) * (n : Fr)⁻¹) :
    (∑ i ∈ Finset.range n, a i * (ω ^ i * (τ ^ n - 1) * ((n : Fr) * (τ - ω ^ i))⁻¹)) - y =
    (∑ i ∈ Finset.range n,
        (a i - y) * (ω ^ i - z)⁻¹ * (ω ^ i * (τ ^ n - 1) * ((n : Fr) * (τ - ω ^ i))⁻¹))
      * (τ - z) := by
  have hfz := sum_root_fracs ω z n hω hn0 hz hzn
  have hfτ := sum_root_fracs ω τ n hω hn0 hτ hτn
  have perterm : ∀ i ∈ Finset.range n,
      (a i - y) * (ω ^ i - z)⁻¹ * (ω ^ i * (τ ^ n - 1) * ((n : Fr) * (τ - ω ^ i))⁻¹) * (τ - z)
        = (-((τ ^ n - 1) * (n : Fr)⁻¹)) * (a i * ω ^ i * (z - ω ^ i)⁻¹)
          + ((τ ^ n - 1) * (n : Fr)⁻¹ * y) * (ω ^ i * (z - ω ^ i)⁻¹)
          + (a i * (ω ^ i * (τ ^ n - 1) * ((n : Fr) * (τ - ω ^ i))⁻¹)
            - (y * ((τ ^ n - 1) * (n : Fr)⁻¹)) * (ω ^ i * (τ - ω ^ i)⁻¹)) := by
    intro i hi
    have h1 : τ - ω ^ i ≠ 0 := hτ i (Finset.mem_range.mp hi)
    have h2 : z - ω ^ i ≠ 0 := hz i (Finset.mem_range.mp hi)
    have h3 : ω ^ i - z ≠ 0 := fun hc => h2 (by
      have h4 : z = ω ^ i := by linear_combination -hc
      rw [h4, sub_self])
    field_simp
    ring
  rw [Finset.sum_mul, Finset.sum_congr rfl perterm, Finset.sum_add_distrib,
    Finset.sum_add_distrib, Finset.sum_sub_distrib, ← Finset.mul_sum, ← Finset.mul_sum,
    ← Finset.mul_sum, hfz, hfτ]
  set S := ∑ i ∈ Finset.range n, a i * ω ^ i * (z - ω ^ i)⁻¹ with hSdef
  have e13 : (τ ^ n - 1) * (n : Fr)⁻¹ * y * ((n : Fr) * (z ^ n - 1)⁻¹)
      = (τ ^ n - 1) * (n : Fr)⁻¹ * S := by
    rw [hy]
    calc (τ ^ n - 1) * (n : Fr)⁻¹ * (S * (z ^ n - 1) * (n : Fr)⁻¹) * ((n : Fr) * (z ^ n - 1)⁻¹)
        = (τ ^ n - 1) * (n : Fr)⁻¹ * S * ((z ^ n - 1) * (z ^ n - 1)⁻¹)
            * ((n : Fr)⁻¹ * (n : Fr)) := by ring
      _ = (τ ^ n - 1) * (n : Fr)⁻¹ * S := by
          rw [mul_inv_cancel₀ hzn, inv_mul_cancel₀ hnF, mul_one, mul_one]
  have e2 : y * ((τ ^ n - 1) * (n : Fr)⁻¹) * ((n : Fr) * (τ ^ n - 1)⁻¹) = y := by
    calc y * ((τ ^ n - 1) * (n : Fr)⁻¹) * ((n : Fr) * (τ ^ n - 1)⁻¹)
        = y * ((τ ^ n - 1) * (τ ^ n - 1)⁻¹) * ((n : Fr)⁻¹ * (n : Fr)) := by ring
      _ = y := by rw [mul_inv_cancel₀ hτn, inv_mul_cancel₀ hnF, mul_one, mul_one]
  rw [e13, e2]
  ring

/-- The linear scan misses on a non-member, from any start offset. -/
theorem findIdxQ_none_aux (z : Fr) : ∀ (l : List Fr) (i : ℕ), z ∉ l →
    List.findIdx? (fun w => w == z) l i = none := by
  intro l
  induction l with
  | nil => intro i _; rfl
  | cons a l ih =>
    intro i hz
    have ha : (a == z) = false := by
      simp only [beq_eq_false_iff_ne]
      intro h
      exact hz (h ▸ List.mem_cons_self a l)
    simp only [List.findIdx?_cons, ha]
    rw [if_neg (by decide)]
    exact ih (i + 1) (fun h => hz (List.mem_cons_of_mem a h))

/-- The linear scan misses on a non-member. -/
theorem findIdxQ_none (l : List Fr) (z : Fr) (hz : z ∉ l) :
    l.findIdx? (fun w => w == z) = none :=
  findIdxQ_none_aux z l 0 hz

/-- On a zero-free vector the asserting batch inversion succeeds and inverts
element-wise. -/
theorem batch_inverse_of_ne_zero (v : List Fr) (h : ∀ x ∈ v, x ≠ 0) :
    batch_inverse v = some (v.map (fun x => x⁻¹)) := by
  unfold batch_inverse
  rw [List.filter_eq_self.mpr (fun a ha => by simpa using h a ha), if_pos rfl,
    serial_batch_inversion_eq]

/-- Barycentric evaluation at a point outside the domain, as a range sum. -/
theorem evaluateOutside_spec (p : List Fr) (z : Fr) (d : RootsU)
    (h1 : p.length = d.inner.length) (h2 : d.inner.contains z = false) :
    evaluateOutsideOfDomain p z d = some
      ((∑ i ∈ Finset.range p.length,
        p.getD i 0 * d.inner.getD i 0 * (z - d.inner.getD i 0)⁻¹)
        * (frPow z p.length - 1) * d.inverseDomainSize) := by
  unfold evaluateOutsideOfDomain
  rw [if_neg (fun hc => hc h1), if_neg (by simpa using h2),
    foldl_range_add (fun i => p.getD i 0 * d.inner.getD i 0
      * inverseOrZero (z - d.inner.getD i 0)) p.length]
  have hsum : (∑ i ∈ Finset.range p.length, p.getD i 0 * d.inner.getD i 0
      * inverseOrZero (z - d.inner.getD i 0))
      = ∑ i ∈ Finset.range p.length, p.getD i 0 * d.inner.getD i 0
        * (z - d.inner.getD i 0)⁻¹ :=
    Finset.sum_congr rfl (fun i _ => by rw [inverseOrZero, frInvert_eq])
  rw [hsum]

/-- The quotient dispatcher at a point outside the domain: batch-invert the
root differences and fill the quotient slots. -/
theorem compute_outside_spec (p : List Fr) (z y : Fr) (d : RootsU)
    (hzne : ∀ x ∈ d.inner, x - z ≠ 0) (hzmem : z ∉ d.inner)
    (hlen : isPow2 (min d.inner.length p.length)) :
    compute p z y d = some (List.zipWith (fun qi ei => (ei - y) * qi)
      (d.inner.map (fun w => (w - z)⁻¹)) p) := by
  unfold compute
  rw [findIdxQ_none _ _ hzmem]
  unfold compute_quotient_outside_domain
  have hb : batch_inverse (d.inner.map (fun w => w - z)) =
      some ((d.inner.map (fun w => w - z)).map (fun x => x⁻¹)) := by
    refine batch_inverse_of_ne_zero _ (fun x hx => ?_)
    obtain ⟨w, hw, rfl⟩ := List.mem_map.mp hx
    exact hzne w hw
  rw [List.map_map] at hb
  have hcomp : ((fun x => x⁻¹) ∘ fun w => w - z) = fun w => (w - z)⁻¹ := rfl
  rw [hcomp] at hb
  rw [hb]
  show polynomialNew _ = _
  unfold polynomialNew
  rw [if_pos (by
    rw [List.length_zipWith, List.length_map]
    exact hlen)]

/-- Sum of a heterogeneous `zipWith` of two lists of length `m` as a
`Finset.range` sum. -/
theorem zipWith_sum_range' {α β : Type} (f : α → β → Fr) (da : α) (db : β) :
    ∀ (m : ℕ) (a : List α) (b : List β), a.length = m → b.length = m →
    (List.zipWith f a b).sum = ∑ j ∈ Finset.range m, f (a.getD j da) (b.getD j db) := by
  intro m
  induction m with
  | zero =>
    intro a b ha hb
    rw [List.length_eq_zero.mp ha, List.length_eq_zero.mp hb]
    simp
  | succ m ih =>
    intro a b ha hb
    cases a with
    | nil => simp at ha
    | cons x a =>
      cases b with
      | nil => simp at hb
      | cons y b =>
        rw [List.zipWith_cons_cons, List.sum_cons, Finset.sum_range_succ',
          ih a b (by simpa using ha) (by simpa using hb)]
        exact add_comm _ _

/-- C4: the aggregated round-trip. For a batch of m >= 1 polynomials of the
power-of-two domain size, commitments obtained from the commit key of
Lagrange coefficients at `τ` (the same `τ` the opening key holds, in the
exponent model), a domain of the `n`-th roots of unity of a primitive root
`ω` and the derived evaluation challenge landing outside the domain,
`verify(opening_key, create(commit_key, domain), domain)` returns true. -/
theorem aggregated_roundtrip (serG1 : Fr → List ℕ) (ω τ z : Fr) (k n : ℕ)
    (polys : List (List Fr)) (polyComms : List Fr) (d : RootsU)
    (hn : n = 2 ^ k) (hk : k ≤ 64)
    (hω : IsPrimitiveRoot ω n)
    (hd : d.inner = (List.range n).map (fun i => ω ^ i))
    (hdsize : d.inverseDomainSize = ((n : ℕ) : Fr)⁻¹)
    (hm : polys ≠ []) (hlen : polys.length = polyComms.length)
    (hsame : ∀ p ∈ polys, p.length = n)
    (hτd : d.inner.contains τ = false)
    (hcomm : ∀ j, j < polys.length →
      commitCK (lagrangeCoeffs ω n τ) (polys.getD j []) = some (polyComms.getD j 0))
    (hzc : aggChallengeZ serG1 polys polyComms = some z)
    (hzd : d.inner.contains z = false) :
    ∃ w, aggregatedCreate serG1 (lagrangeCoeffs ω n τ) polys polyComms d = some w ∧
      aggregatedVerify serG1 τ polys polyComms w d = some true := by
  -- numeric facts
  have hn0 : 0 < n := by rw [hn]; positivity
  haveI : NeZero n := ⟨hn0.ne'⟩
  have hn2 : isPow2 n := by rw [hn]; exact isPow2_two_pow k
  have hnF : ((n : ℕ) : Fr) ≠ 0 := by
    rw [hn]
    push_cast
    exact pow_ne_zero k (by decide : (2 : Fr) ≠ 0)
  have hn300 : n < 2 ^ 300 := by
    rw [hn]
    calc (2 : ℕ) ^ k ≤ 2 ^ 64 := Nat.pow_le_pow_right (by norm_num) hk
      _ < 2 ^ 300 := by norm_num
  -- domain facts
  have hInnerLen : d.inner.length = n := by rw [hd, List.length_map, List.length_range]
  have hInnerGet : ∀ i, i < n → d.inner.getD i 0 = ω ^ i := by
    intro i hi
    rw [hd]
    exact getD_map_range _ n i hi
  have hτmem : τ ∉ d.inner := by simpa using hτd
  have hzmem : z ∉ d.inner := by simpa using hzd
  have hτi : ∀ i, i < n → τ - ω ^ i ≠ 0 := by
    intro i hi hc
    refine hτmem ?_
    rw [hd]
    exact List.mem_map.mpr ⟨i, List.mem_range.mpr hi, by linear_combination -hc⟩
  have hzi : ∀ i, i < n → z - ω ^ i ≠ 0 := by
    intro i hi hc
    refine hzmem ?_
    rw [hd]
    exact List.mem_map.mpr ⟨i, List.mem_range.mpr hi, by linear_combination -hc⟩
  have hτn : τ ^ n - 1 ≠ 0 := by
    intro hc
    obtain ⟨i, hi, hei⟩ := hω.eq_pow_of_pow_eq_one (by linear_combination hc)
    exact hτi i hi (by rw [hei]; ring)
  have hzn : z ^ n - 1 ≠ 0 := by
    intro hc
    obtain ⟨i, hi, hei⟩ := hω.eq_pow_of_pow_eq_one (by linear_combination hc)
    exact hzi i hi (by rw [hei]; ring)
  -- commit key facts
  have hckLen : (lagrangeCoeffs ω n τ).length = n := by
    unfold lagrangeCoeffs
    rw [List.length_map, List.length_range]
  have hckGet : ∀ i, i < n → (lagrangeCoeffs ω n τ).getD i 0 =
      ω ^ i * (τ ^ n - 1) * (((n : ℕ) : Fr) * (τ - ω ^ i))⁻¹ := by
    intro i hi
    unfold lagrangeCoeffs
    rw [getD_map_range _ n i hi, frPow_eq ω i (lt_trans hi hn300),
      frPow_eq τ n hn300, frInvert_eq]
  -- the aggregate
  obtain ⟨agg0, hagg0, hca⟩ := compute_aggregate_spec serG1 polys polyComms n hm hlen hsame hn2
  obtain ⟨agg, hagg, haggLen, haggGet⟩ := matrixLincomb_spec polys
    (compute_powers (aggChallengeR serG1 polys polyComms) polyComms.length) n hm hsame hn2
  obtain rfl : agg0 = agg := Option.some.inj (hagg0.symm.trans hagg)
  set r := aggChallengeR serG1 polys polyComms with hr
  set ck := lagrangeCoeffs ω n τ with hckdef
  set AC := (List.zipWith (fun s p => s * p) (compute_powers r polyComms.length)
    polyComms).sum with hACdef
  set Y := (∑ i ∈ Finset.range n, agg0.getD i 0 * ω ^ i * (z - ω ^ i)⁻¹)
    * (z ^ n - 1) * ((n : ℕ) : Fr)⁻¹ with hYdef
  set Q := List.zipWith (fun qi ei => (ei - Y) * qi)
    (d.inner.map (fun w => (w - z)⁻¹)) agg0 with hQdef
  set QC := (List.zipWith (fun s p => s * p) Q ck).sum with hQCdef
  -- aggregate entries as sums over the batch
  have haggEntry : ∀ i, i < n → agg0.getD i 0 =
      ∑ j ∈ Finset.range polys.length, (polys.getD j []).getD i 0 * r ^ j := by
    intro i hi
    rw [haggGet i hi, zipWith_sum_range' (fun p s => p.getD i 0 * s) [] 0 polys.length
      polys (compute_powers r polyComms.length) rfl
      (by rw [compute_powers_length, hlen]), ← hlen]
    refine Finset.sum_congr rfl (fun j hj => ?_)
    rw [compute_powers_getD _ _ j (Finset.mem_range.mp hj)]
  -- each commitment is the inner product of its polynomial with the key
  have hcommSum : ∀ j, j < polys.length → polyComms.getD j 0 =
      ∑ i ∈ Finset.range n, (polys.getD j []).getD i 0 * ck.getD i 0 := by
    intro j hj
    have hpj : (polys.getD j []).length = n := by
      refine hsame _ ?_
      rw [List.getD_eq_getElem _ _ hj]
      exact List.getElem_mem _
    have h := hcomm j hj
    unfold commitCK g1Lincomb at h
    rw [if_pos (by rw [hckLen, hpj])] at h
    rw [← Option.some.inj h, zipWith_sum_range' (fun s p => s * p) 0 0 n
      (polys.getD j []) ck hpj hckLen]
  -- the aggregate commitment commits the aggregate polynomial
  have haggComm : AC = ∑ i ∈ Finset.range n, agg0.getD i 0 * ck.getD i 0 := by
    rw [hACdef, zipWith_sum_range' (fun s p => s * p) 0 0 polyComms.length
      (compute_powers r polyComms.length) polyComms (compute_powers_length _ _) rfl, ← hlen]
    calc ∑ j ∈ Finset.range polys.length,
        (compute_powers r polys.length).getD j 0 * polyComms.getD j 0
        = ∑ j ∈ Finset.range polys.length, ∑ i ∈ Finset.range n,
            r ^ j * ((polys.getD j []).getD i 0 * ck.getD i 0) := by
          refine Finset.sum_congr rfl (fun j hj => ?_)
          have hj' : j < polys.length := Finset.mem_range.mp hj
          rw [compute_powers_getD _ _ j hj', hcommSum j hj', Finset.mul_sum]
      _ = ∑ i ∈ Finset.range n, agg0.getD i 0 * ck.getD i 0 := by
          rw [Finset.sum_comm]
          refine Finset.sum_congr rfl (fun i hi => ?_)
          rw [haggEntry i (Finset.mem_range.mp hi), Finset.sum_mul]
          refine Finset.sum_congr rfl (fun j hj => ?_)
          ring
  -- barycentric evaluation of the aggregate at the challenge
  have heval : evaluateOutsideOfDomain agg0 z d = some Y := by
    rw [evaluateOutside_spec agg0 z d (by rw [haggLen, hInnerLen]) hzd, haggLen, hdsize,
      frPow_eq z n hn300]
    have hsums : (∑ i ∈ Finset.range n, agg0.getD i 0 * d.inner.getD i 0
        * (z - d.inner.getD i 0)⁻¹)
        = ∑ i ∈ Finset.range n, agg0.getD i 0 * ω ^ i * (z - ω ^ i)⁻¹ :=
      Finset.sum_congr rfl (fun i hi => by rw [hInnerGet i (Finset.mem_range.mp hi)])
    rw [hsums, hYdef]
  -- the quotient polynomial
  have hq : compute agg0 z Y d = some Q := by
    refine compute_outside_spec agg0 z Y d ?_ hzmem ?_
    · intro x hx
      rw [hd] at hx
      obtain ⟨i, hir, rfl⟩ := List.mem_map.mp hx
      exact fun hc => hzi i (List.mem_range.mp hir) (by linear_combination -hc)
    · rw [hInnerLen, haggLen, Nat.min_self]
      exact hn2
  have hQlen : Q.length = n := by
    rw [hQdef, List.length_zipWith, List.length_map, hInnerLen, haggLen, Nat.min_self]
  have hQget : ∀ i, i < n → Q.getD i 0 = (agg0.getD i 0 - Y) * (ω ^ i - z)⁻¹ := by
    intro i hi
    rw [hQdef, getD_zipWith _ _ _ i (by rw [List.length_map, hInnerLen]; exact hi)
      (by rw [haggLen]; exact hi)]
    have hmapget : (d.inner.map (fun w => (w - z)⁻¹)).getD i 0 = (ω ^ i - z)⁻¹ := by
      rw [hd, List.map_map]
      exact getD_map_range _ n i hi
    rw [hmapget]
  -- the quotient commitment
  have hqc : g1Lincomb ck Q = some QC := by
    rw [hQCdef]
    exact g1Lincomb_eq _ _ (by rw [hckLen, hQlen])
  have hqcSum : QC = ∑ i ∈ Finset.range n, Q.getD i 0 * ck.getD i 0 := by
    rw [hQCdef]
    exact zipWith_sum_range' (fun s p => s * p) 0 0 n Q ck hQlen hckLen
  -- the single-opening proof
  have hkzg : kzgProofCreate ck agg0 AC z d = some (AC, QC, Y) := by
    unfold kzgProofCreate
    simp only [heval, hq, hqc, bind, Option.some_bind]
  -- the evaluation challenge both sides derive
  have hz2 := hzc
  unfold aggChallengeZ at hz2
  simp only [hca, bind, Option.some_bind] at hz2
  have hchal := Option.some.inj hz2
  -- the prover
  have hcreate : aggregatedCreate serG1 ck polys polyComms d = some QC := by
    unfold aggregatedCreate
    simp only [hca, bind, Option.some_bind, hchal, hkzg]
  -- the pairing check holds
  have hcheck : openingKeyVerify τ z Y AC QC = true := by
    unfold openingKeyVerify
    rw [beq_iff_eq]
    have hAC2 : AC = ∑ i ∈ Finset.range n,
        agg0.getD i 0 * (ω ^ i * (τ ^ n - 1) * (((n : ℕ) : Fr) * (τ - ω ^ i))⁻¹) := by
      rw [haggComm]
      exact Finset.sum_congr rfl (fun i hi => by
        rw [hckGet i (Finset.mem_range.mp hi)])
    have hQC2 : QC = ∑ i ∈ Finset.range n,
        (agg0.getD i 0 - Y) * (ω ^ i - z)⁻¹
          * (ω ^ i * (τ ^ n - 1) * (((n : ℕ) : Fr) * (τ - ω ^ i))⁻¹) := by
      rw [hqcSum]
      exact Finset.sum_congr rfl (fun i hi => by
        rw [hQget i (Finset.mem_range.mp hi), hckGet i (Finset.mem_range.mp hi)])
    rw [hAC2, hQC2, hYdef]
    exact kzg_division_identity ω τ z Y n (fun i => agg0.getD i 0) hω hn0 hnF hτi hτn
      hzi hzn hYdef
  -- the verifier
  have hverify : aggregatedVerify serG1 τ polys polyComms QC d = some true := by
    unfold aggregatedVerify
    simp only [hca, bind, Option.some_bind, hchal, heval, hcheck]
  exact ⟨QC, hcreate, hverify⟩

set_option maxRecDepth 1000000 in
/-- Witness for C4: the singleton batch `[[5]]` over the trivial domain
`{1}` with `τ = 2`, where the commitment of `[5]` under the Lagrange key is
`5` and the concrete SHA-256-derived evaluation challenge avoids the
domain. -/
theorem aggregated_roundtrip_witness :
    IsPrimitiveRoot (1 : Fr) 1 ∧
    (∃ w, aggregatedCreate serNull (lagrangeCoeffs 1 1 2) [[5]] [5] ⟨[1], 1⟩ = some w ∧
      aggregatedVerify serNull 2 [[5]] [5] w ⟨[1], 1⟩ = some true) :=
  ⟨IsPrimitiveRoot.one, aggregated_roundtrip serNull 1 2
    ((36169728143215364048279079345283507330628454769979948042788274730016515823803 : ℕ) : Fr)
    0 1 [[5]] [5] ⟨[1], 1⟩ rfl (by decide) IsPrimitiveRoot.one (by decide) (by norm_num)
    (by decide) rfl (by decide) (by decide) (by decide) (by decide) (by decide)⟩
